import Mathlib

/-!
Verification of the uigen in-memory virtual file system (VFS) specification
and of the Vitest environment-setup modules.

The VFS, tool-call layer and transform pipeline described by the spec are
not among the provided sources (only the test environment setup modules
are), so those components are modelled from the spec, as indicated on each
definition.  The environment-setup definitions at the end of the file are
translated from `src/vitest.setup.ts` and from the older setup module in
`src/unnamed/part_001`.
-/

set_option autoImplicit false

namespace VFS

/-- Modelled from the spec: the VFS path-error taxonomy
(malformed / not found / already exists / type mismatch); the VFS
implementation itself is missing from the sources. -/
inductive PathError where
  | invalidPath
  | notFound
  | alreadyExists
  | typeMismatch
deriving DecidableEq

/-- Modelled from the spec: the tool-call layer edit-error taxonomy
(no-match / ambiguous-match / out-of-range). -/
inductive EditError where
  | noMatch
  | ambiguousMatch
  | outOfRange
deriving DecidableEq

/-- Modelled from the spec: the error raised by `deserialize` on a
malformed persisted tree. -/
inductive FmtError where
  | invalidFormat
deriving DecidableEq

/-- Modelled from the spec: the error raised by entry point detection
when no candidate exists. -/
inductive EntryError where
  | noEntryPoint
deriving DecidableEq

/-- Modelled from the spec: a structured error surfaced by a tool call,
either a VFS path error or an edit error. -/
inductive VErr where
  | path (e : PathError)
  | edit (e : EditError)
deriving DecidableEq

/-- Modelled from the spec: splitting a character list at every slash;
part of the missing path-normalization function. -/
def splitSlash : List Char → List (List Char)
  | [] => [[]]
  | c :: cs =>
    if c = '/' then [] :: splitSlash cs
    else
      match splitSlash cs with
      | [] => [[c]]
      | s :: ss => (c :: s) :: ss

/-- Modelled from the spec: the non-empty segments of a path's character
list, i.e. the result of collapsing consecutive slashes and dropping
leading/trailing ones. -/
def segsOfChars (l : List Char) : List (List Char) :=
  (splitSlash l).filter (fun s => decide (s ≠ []))

/-- Modelled from the spec: the segments of a path string. -/
def pathSegs (p : String) : List String :=
  (segsOfChars p.data).map String.mk

/-- Modelled from the spec: the invariant `path of a node equals parent
path + "/" + name` (with root path `"/"`). -/
def childPath (p nm : String) : String :=
  if p = "/" then p ++ nm else p ++ "/" ++ nm

/-- Modelled from the spec: the absolute path reached from `p` by
following the listed child names. -/
def extendPath (p : String) (segs : List String) : String :=
  segs.foldl childPath p

/-- Modelled from the spec: the missing pure path-normalization function:
ensure a single leading slash, strip the trailing slash (except for the
root) and collapse consecutive slashes. -/
def normalize (p : String) : String :=
  extendPath "/" (pathSegs p)

/-- A segment holds no slash character. -/
def noSlash : List Char → Bool
  | [] => true
  | c :: cs => decide (c ≠ '/') && noSlash cs

/-- Join segments back into a path body, a slash before each segment. -/
def slashJoin : List (List Char) → List Char
  | [] => []
  | l :: ls => '/' :: (l ++ slashJoin ls)

/-- The string suffix contributed by a list of child names: a slash
before each name. -/
def relSuffix : List String → String
  | [] => ""
  | s :: ss => "/" ++ s ++ relSuffix ss

/-- Modelled from the spec: the FileNode data model — a discriminated
entity, variant `file` (with text content) or `directory` (with an ordered
list of children), carrying `name` and absolute normalized `path`
attributes; the VFS implementation is missing from the sources. -/
inductive FSNode where
  | file (name : String) (path : String) (content : String)
  | dir (name : String) (path : String) (children : List FSNode)

/-- The `name` attribute of a node. -/
def nameOf : FSNode → String
  | .file nm _ _ => nm
  | .dir nm _ _ => nm

/-- The `path` attribute of a node. -/
def pathOf : FSNode → String
  | .file _ p _ => p
  | .dir _ p _ => p

/-- The content of a file node, `none` for a directory. -/
def contentOf : FSNode → Option String
  | .file _ _ c => some c
  | .dir _ _ _ => none

/-- Whether a node is a directory. -/
def isDir : FSNode → Bool
  | .file _ _ _ => false
  | .dir _ _ _ => true

/-- The names of a list of sibling nodes, in order. -/
def namesOfL (cs : List FSNode) : List String :=
  cs.map nameOf

/-- The ordered child names of a node (empty for a file). -/
def childNames : FSNode → List String
  | .file _ _ _ => []
  | .dir _ _ cs => namesOfL cs

/-- Modelled from the spec: the VFS starts as an empty root directory
with path `/`. -/
def emptyVFS : FSNode := .dir "" "/" []

/-- Whether a string occurs in a list of strings. -/
def memStr (x : String) : List String → Bool
  | [] => false
  | s :: ss => (s == x) || memStr x ss

/-- Whether a list of strings is duplicate-free. -/
def nodupStr : List String → Bool
  | [] => true
  | s :: ss => !(memStr s ss) && nodupStr ss

/-- The first child with the given name, if any. -/
def findChild (s : String) : List FSNode → Option FSNode
  | [] => none
  | c :: cs => if nameOf c == s then some c else findChild s cs

/-- Replace the first child with the given name. -/
def replaceChild (s : String) (c' : FSNode) : List FSNode → List FSNode
  | [] => []
  | c :: cs => if nameOf c == s then c' :: cs else c :: replaceChild s c' cs

/-- Remove the first child with the given name. -/
def removeChild (s : String) : List FSNode → List FSNode
  | [] => []
  | c :: cs => if nameOf c == s then cs else c :: removeChild s cs

/-- Modelled from the spec: resolving a node by walking a list of path
segments from a starting node. -/
def lookupSegs : List String → FSNode → Option FSNode
  | [], n => some n
  | _ :: _, .file _ _ _ => none
  | s :: rest, .dir _ _ cs =>
    match findChild s cs with
    | none => none
    | some c => lookupSegs rest c

/-- Modelled from the spec: rewrite the node found at the given segment
list using `f`, rebuilding the tree on the way back; `e` is the error
reported when the walk cannot reach the node. -/
def updateAt (e : PathError) (f : FSNode → Except PathError FSNode) :
    List String → FSNode → Except PathError FSNode
  | [], n => f n
  | _ :: _, .file _ _ _ => .error e
  | s :: rest, .dir nm p cs =>
    match findChild s cs with
    | none => .error e
    | some c =>
      match updateAt e f rest c with
      | .error e' => .error e'
      | .ok c' => .ok (.dir nm p (replaceChild s c' cs))

mutual

/-- Structural well-formedness of a node: sibling names are unique and
non-empty, and every child's `path` equals `childPath` of its parent's
path and its own name — the spec's FileNode invariant. -/
def wfN : FSNode → Bool
  | .file _ _ _ => true
  | .dir _ p cs => nodupStr (namesOfL cs) && wfChildren p cs

/-- Well-formedness of a children list relative to the parent path `p`. -/
def wfChildren (p : String) : List FSNode → Bool
  | [] => true
  | c :: cs =>
    decide (nameOf c ≠ "") && (pathOf c == childPath p (nameOf c)) &&
      wfN c && wfChildren p cs

end

/-- Well-formedness of a whole VFS tree: the root is a directory named
`""` with path `"/"`, and the tree satisfies the node invariant. -/
def wfRoot (t : FSNode) : Bool :=
  (nameOf t == "") && (pathOf t == "/") && isDir t && wfN t

mutual

/-- Modelled from the spec: recompute the `path` attribute of a node and,
recursively, of every descendant after a rename — the node itself gets the
supplied name and path, each descendant keeps its name and gets the path
`childPath` of its parent's new path. -/
def reroot (nm pth : String) : FSNode → FSNode
  | .file _ _ c => .file nm pth c
  | .dir _ _ cs => .dir nm pth (rerootList pth cs)

/-- Recompute paths of a children list under a new parent path. -/
def rerootList (pth : String) : List FSNode → List FSNode
  | [] => []
  | c :: cs => reroot (nameOf c) (childPath pth (nameOf c)) c :: rerootList pth cs

end

/-- Modelled from the spec: `read(path)` returns the node at the
normalized path or fails with `NotFound`. -/
def readNode (t : FSNode) (p : String) : Except PathError FSNode :=
  match lookupSegs (pathSegs p) t with
  | some n => .ok n
  | none => .error .notFound

/-- Remove the child named `nm` from a directory node; fails with
`NotFound` when the child is absent or the node is a file. -/
def removeChildF (nm : String) : FSNode → Except PathError FSNode
  | .file _ _ _ => .error .notFound
  | .dir dn dp cs =>
    if (findChild nm cs).isSome then .ok (.dir dn dp (removeChild nm cs))
    else .error .notFound

/-- Append a child named `nm`, built by `mk` from the child path computed
from the directory's own path; fails with `AlreadyExists` when a child of
that name is present and with `InvalidPath` on a file node. -/
def appendChildF (nm : String) (mk : String → FSNode) :
    FSNode → Except PathError FSNode
  | .file _ _ _ => .error .invalidPath
  | .dir dn dp cs =>
    if (findChild nm cs).isSome then .error .alreadyExists
    else .ok (.dir dn dp (cs ++ [mk (childPath dp nm)]))

/-- Overwrite a file node's content; fails with `TypeMismatch` on a
directory. -/
def setContentF (content : String) : FSNode → Except PathError FSNode
  | .file nm pth _ => .ok (.file nm pth content)
  | .dir _ _ _ => .error .typeMismatch

/-- Modelled from the spec: shared shape of `create(path, content)` and
`create(path, isDirectory)` — fails with `AlreadyExists` when a node at
the path exists, with `InvalidPath` when the parent is missing or is a
file, and otherwise appends the node built by `mkN` from the new name and
path to the parent's children. -/
def createWith (mkN : String → String → FSNode) (t : FSNode) (p : String) :
    Except PathError FSNode :=
  let ss := pathSegs p
  if hss : ss = [] then .error .alreadyExists
  else if (lookupSegs ss t).isSome then .error .alreadyExists
  else
    updateAt .invalidPath
      (appendChildF (ss.getLast hss) (fun pth => mkN (ss.getLast hss) pth))
      ss.dropLast t

/-- Modelled from the spec: `create(path, content)` for a file. -/
def create (t : FSNode) (p content : String) : Except PathError FSNode :=
  createWith (fun nm pth => .file nm pth content) t p

/-- Modelled from the spec: `create(path, isDirectory)` for a directory. -/
def createDir (t : FSNode) (p : String) : Except PathError FSNode :=
  createWith (fun nm pth => .dir nm pth []) t p

/-- Modelled from the spec: `update(path, content)` — fails with
`NotFound` if missing and `TypeMismatch` if the path denotes a
directory. -/
def update (t : FSNode) (p content : String) : Except PathError FSNode :=
  updateAt .notFound (setContentF content) (pathSegs p) t

/-- Modelled from the spec: `delete(path)` — removes the node and, for a
directory, its entire subtree; fails with `NotFound` if missing; the root
cannot be deleted. -/
def delete (t : FSNode) (p : String) : Except PathError FSNode :=
  let ss := pathSegs p
  if hss : ss = [] then .error .invalidPath
  else if (lookupSegs ss t).isSome then
    updateAt .notFound (removeChildF (ss.getLast hss)) ss.dropLast t
  else .error .notFound

/-- Modelled from the spec: `rename(oldPath, newPath)` — fails with
`NotFound` when the source is absent and `AlreadyExists` when the
destination is occupied; on success it removes the source node, recomputes
its name and the `path` of the node and of every descendant, and attaches
it under the destination parent. -/
def rename (t : FSNode) (oldP newP : String) : Except PathError FSNode :=
  let os := pathSegs oldP
  let ns := pathSegs newP
  if hos : os = [] then .error .invalidPath
  else
    match lookupSegs os t with
    | none => .error .notFound
    | some n =>
      if hns : ns = [] then .error .invalidPath
      else if (lookupSegs ns t).isSome then .error .alreadyExists
      else
        match updateAt .notFound (removeChildF (os.getLast hos)) os.dropLast t with
        | .error e => .error e
        | .ok t1 =>
          updateAt .notFound
            (appendChildF (ns.getLast hns) (fun pth => reroot (ns.getLast hns) pth n))
            ns.dropLast t1

/-- Modelled from the spec: the plain nested structure produced by
`serialize()` and consumed by `deserialize(blob)`; every field is
optional so that blobs with missing required fields are representable. -/
inductive Blob where
  | node (tag : Option String) (name : Option String)
         (content : Option String) (children : Option (List Blob))

/-- The name field of a blob, defaulting to the empty string. -/
def blobNameOf : Blob → String
  | .node _ nm _ _ => nm.getD ""

mutual

/-- Modelled from the spec: `serialize()` — a plain nested structure
holding the node kind, name, content (files) and children (directories);
the `path` attribute is derivable and not persisted. -/
def serialize : FSNode → Blob
  | .file nm _ c => .node (some "file") (some nm) (some c) none
  | .dir nm _ cs => .node (some "directory") (some nm) none (some (serializeList cs))

/-- Serialize a children list in order. -/
def serializeList : List FSNode → List Blob
  | [] => []
  | c :: cs => serialize c :: serializeList cs

end

mutual

/-- Modelled from the spec: rebuild one node from a blob below a parent
with path `pp`, rejecting missing required fields and duplicate sibling
names with `InvalidFormat`; the `path` attribute is recomputed from the
parent path and the name. -/
def deserializeNode (pp : String) : Blob → Except FmtError FSNode
  | .node tag nmo co cho =>
    match tag with
    | none => .error .invalidFormat
    | some tg =>
      if tg == "file" then
        match nmo, co with
        | some nm, some c => .ok (.file nm (childPath pp nm) c)
        | _, _ => .error .invalidFormat
      else if tg == "directory" then
        match nmo, cho with
        | some nm, some cbs =>
          match deserializeList (childPath pp nm) cbs with
          | .error e => .error e
          | .ok cs =>
            if nodupStr (namesOfL cs) then .ok (.dir nm (childPath pp nm) cs)
            else .error .invalidFormat
        | _, _ => .error .invalidFormat
      else .error .invalidFormat

/-- Rebuild a children list below parent path `pp`, failing on the first
malformed entry. -/
def deserializeList (pp : String) : List Blob → Except FmtError (List FSNode)
  | [] => .ok []
  | b :: bs =>
    match deserializeNode pp b with
    | .error e => .error e
    | .ok n =>
      match deserializeList pp bs with
      | .error e => .error e
      | .ok ns => .ok (n :: ns)

end

/-- Modelled from the spec: `deserialize(blob)` — the root blob must be a
directory; children are rebuilt below the root path `/`, and malformed
trees (missing required fields, duplicate sibling names) are rejected with
`InvalidFormat`. -/
def deserialize (b : Blob) : Except FmtError FSNode :=
  match b with
  | .node (some "directory") (some nm) _ (some cbs) =>
    match deserializeList "/" cbs with
    | .error e => .error e
    | .ok cs =>
      if nodupStr (namesOfL cs) then .ok (.dir nm "/" cs)
      else .error .invalidFormat
  | _ => .error .invalidFormat

/-- Whether `pat` starts the list `s`. -/
def leadsWith : List Char → List Char → Bool
  | [], _ => true
  | _ :: _, [] => false
  | a :: as, b :: bs => (a == b) && leadsWith as bs

/-- Modelled from the spec: the number of occurrences of `pat` in `s`
(matches counted at every position), used by `str_replace` to detect
absent and ambiguous matches. -/
def countOcc (pat : List Char) : List Char → Nat
  | [] => if leadsWith pat [] then 1 else 0
  | c :: rest =>
    (if leadsWith pat (c :: rest) then 1 else 0) + countOcc pat rest

/-- Modelled from the spec: replace the first occurrence of `pat` by
`repl` in `s`. -/
def replaceFirst (pat repl : List Char) : List Char → List Char
  | [] => if leadsWith pat [] then repl else []
  | c :: rest =>
    if leadsWith pat (c :: rest) then repl ++ (c :: rest).drop pat.length
    else c :: replaceFirst pat repl rest

/-- Modelled from the spec: the editor tool `str_replace(path, oldText,
newText)` — fails with `NoMatch` when `oldText` is absent, with an
ambiguous-match error when it occurs more than once, and otherwise
replaces the single occurrence through the VFS `update` contract. -/
def strReplace (t : FSNode) (p oldS newS : String) : Except VErr FSNode :=
  match readNode t p with
  | .error e => .error (.path e)
  | .ok (.dir _ _ _) => .error (.path .typeMismatch)
  | .ok (.file _ _ c) =>
    let k := countOcc oldS.data c.data
    if k = 0 then .error (.edit .noMatch)
    else if k = 1 then
      (update t p (String.mk (replaceFirst oldS.data newS.data c.data))).mapError VErr.path
    else .error (.edit .ambiguousMatch)

/-- Modelled from the spec: the editor tool `insert(path, afterLine,
text)` — fails with `OutOfRange` when `afterLine` exceeds the line count,
otherwise inserts the text after the given line through `update`. -/
def insertLine (t : FSNode) (p : String) (afterLine : Nat) (text : String) :
    Except VErr FSNode :=
  match readNode t p with
  | .error e => .error (.path e)
  | .ok (.dir _ _ _) => .error (.path .typeMismatch)
  | .ok (.file _ _ c) =>
    let lines := c.splitOn "\n"
    if lines.length < afterLine then .error (.edit .outOfRange)
    else
      (update t p (String.intercalate "\n"
        (lines.take afterLine ++ [text] ++ lines.drop afterLine))).mapError VErr.path

/-- Whether a node exists at the given path. -/
def existsPath (t : FSNode) (p : String) : Bool :=
  (lookupSegs (pathSegs p) t).isSome

/-- Modelled from the spec: the fixed ordered candidate list scanned by
entry point detection. -/
def entryCandidates : List String :=
  ["/App.jsx", "/App.tsx", "/index.jsx", "/index.tsx"]

/-- Modelled from the spec: scan a candidate list and pick the first path
that exists, failing with `NoEntryPoint` when none does. -/
def detectFrom (t : FSNode) : List String → Except EntryError String
  | [] => .error .noEntryPoint
  | p :: rest => if existsPath t p then .ok p else detectFrom t rest

/-- Modelled from the spec: entry point detection over the fixed
candidate list. -/
def detectEntryPoint (t : FSNode) : Except EntryError String :=
  detectFrom t entryCandidates

/-- Modelled from the spec: the closed enumeration of mutating VFS / tool
operations. -/
inductive Op where
  | create (p content : String)
  | createDir (p : String)
  | update (p content : String)
  | delete (p : String)
  | rename (oldP newP : String)
  | strReplace (p oldS newS : String)
  | insertLine (p : String) (afterLine : Nat) (text : String)

/-- Modelled from the spec: apply one operation to the tree, yielding the
new tree or a structured error value. -/
def applyOp (t : FSNode) : Op → Except VErr FSNode
  | .create p c => (create t p c).mapError VErr.path
  | .createDir p => (createDir t p).mapError VErr.path
  | .update p c => (update t p c).mapError VErr.path
  | .delete p => (delete t p).mapError VErr.path
  | .rename o n => (rename t o n).mapError VErr.path
  | .strReplace p o n => strReplace t p o n
  | .insertLine p a x => insertLine t p a x

/-- Modelled from the spec: run one operation atomically — on success the
new tree is installed, on failure the previous tree is kept unchanged and
the error is reported as a value. -/
def runOp (t : FSNode) (o : Op) : FSNode × Option VErr :=
  match applyOp t o with
  | .ok t' => (t', none)
  | .error e => (t, some e)

/-- Modelled from the spec: the trees producible by a sequence of the
VFS's own operations starting from the empty root. -/
inductive Reachable : FSNode → Prop where
  | base : Reachable emptyVFS
  | ofCreate (t t' : FSNode) (p c : String) :
      Reachable t → create t p c = .ok t' → Reachable t'
  | ofCreateDir (t t' : FSNode) (p : String) :
      Reachable t → createDir t p = .ok t' → Reachable t'
  | ofUpdate (t t' : FSNode) (p c : String) :
      Reachable t → update t p c = .ok t' → Reachable t'
  | ofDelete (t t' : FSNode) (p : String) :
      Reachable t → delete t p = .ok t' → Reachable t'
  | ofRename (t t' : FSNode) (oldP newP : String) :
      Reachable t → rename t oldP newP = .ok t' → Reachable t'

end VFS

/-- The process environment variables touched by the Vitest setup modules,
each `none` when undefined. -/
structure Env where
  nodeEnv : Option String
  jwtSecret : Option String
  anthropicApiKey : Option String
  ci : Option String
deriving DecidableEq

/-- JavaScript falsiness of an environment variable: undefined or the
empty string (`!process.env.X`). -/
def falsy : Option String → Bool
  | none => true
  | some s => s == ""

/-- Loading `src/vitest.setup.ts`: sets `NODE_ENV` to `"test"` when falsy
(via `Object.defineProperty`), `JWT_SECRET` to the test secret when falsy,
and `ANTHROPIC_API_KEY` to `""` when falsy; the CI branch only logs. -/
def loadVitestSetup (e : Env) : Env :=
  let e1 := if falsy e.nodeEnv then { e with nodeEnv := some "test" } else e
  let e2 := if falsy e1.jwtSecret then { e1 with jwtSecret := some "test-secret-key-for-testing" } else e1
  if falsy e2.anthropicApiKey then { e2 with anthropicApiKey := some "" } else e2

/-- Loading the older setup module `src/unnamed/part_001`: assigns
`NODE_ENV` and `JWT_SECRET` unconditionally, and `ANTHROPIC_API_KEY` to
`""` when falsy. -/
def loadVitestSetupOld (e : Env) : Env :=
  let e1 := { e with nodeEnv := some "test" }
  let e2 := { e1 with jwtSecret := some "test-secret-key-for-testing" }
  if falsy e2.anthropicApiKey then { e2 with anthropicApiKey := some "" } else e2

/-- The default-exported `setup` function of `src/vitest.setup.ts`: its
body is empty, so it does not touch the environment. -/
def vitestSetupFn (e : Env) : Env := e

namespace VFS

theorem splitSlash_ne_nil (l : List Char) : splitSlash l ≠ [] := by
  induction l with
  | nil => simp [splitSlash]
  | cons c cs ih =>
    simp only [splitSlash]
    split
    · simp
    · cases h : splitSlash cs with
      | nil => simp
      | cons s ss => simp

theorem splitSlash_of_noSlash (l : List Char) (h : noSlash l = true) :
    splitSlash l = [l] := by
  induction l with
  | nil => rfl
  | cons c cs ih =>
    simp only [noSlash, Bool.and_eq_true, decide_eq_true_eq] at h
    simp only [splitSlash, if_neg h.1]
    rw [ih h.2]

theorem splitSlash_append (l t : List Char) (h : noSlash l = true) :
    splitSlash (l ++ '/' :: t) = l :: splitSlash t := by
  induction l with
  | nil => simp [splitSlash]
  | cons c cs ih =>
    simp only [noSlash, Bool.and_eq_true, decide_eq_true_eq] at h
    simp only [List.cons_append, splitSlash, if_neg h.1]
    rw [show cs.append ('/' :: t) = cs ++ '/' :: t from rfl, ih h.2]

theorem noSlash_of_mem_splitSlash (l : List Char) :
    ∀ x ∈ splitSlash l, noSlash x = true := by
  induction l with
  | nil =>
    intro x hx
    simp [splitSlash] at hx
    simp [hx, noSlash]
  | cons c cs ih =>
    intro x hx
    simp only [splitSlash] at hx
    by_cases hc : c = '/'
    · rw [if_pos hc] at hx
      rcases List.mem_cons.1 hx with h1 | h1
      · simp [h1, noSlash]
      · exact ih x h1
    · rw [if_neg hc] at hx
      cases hs : splitSlash cs with
      | nil => exact absurd hs (splitSlash_ne_nil cs)
      | cons s ss =>
        rw [hs] at hx
        rcases List.mem_cons.1 hx with h1 | h1
        · subst h1
          have hmem : s ∈ splitSlash cs := by rw [hs]; exact List.mem_cons_self _ _
          have := ih s hmem
          simp [noSlash, hc, this]
        · exact ih x (by rw [hs]; exact List.mem_cons_of_mem _ h1)

theorem mem_segsOfChars (l : List Char) :
    ∀ x ∈ segsOfChars l, noSlash x = true ∧ x ≠ [] := by
  intro x hx
  rcases List.mem_filter.1 hx with ⟨hmem, hne⟩
  exact ⟨noSlash_of_mem_splitSlash l x hmem, by simpa using hne⟩

theorem segsOfChars_cons_slash (x : List Char) :
    segsOfChars ('/' :: x) = segsOfChars x := by
  simp [segsOfChars, splitSlash]

theorem segsOfChars_slashJoin (ls : List (List Char))
    (h : ∀ x ∈ ls, noSlash x = true ∧ x ≠ []) :
    segsOfChars (slashJoin ls) = ls := by
  induction ls with
  | nil => rfl
  | cons l ls ih =>
    have hl := h l (List.mem_cons_self _ _)
    have hrest : ∀ x ∈ ls, noSlash x = true ∧ x ≠ [] :=
      fun x hx => h x (List.mem_cons_of_mem _ hx)
    cases ls with
    | nil =>
      show segsOfChars ('/' :: (l ++ slashJoin [])) = [l]
      rw [segsOfChars_cons_slash]
      simp only [slashJoin, List.append_nil]
      unfold segsOfChars
      rw [splitSlash_of_noSlash l hl.1]
      simp [hl.2]
    | cons l' ls' =>
      have ihr := ih hrest
      show segsOfChars ('/' :: (l ++ slashJoin (l' :: ls'))) = l :: l' :: ls'
      rw [segsOfChars_cons_slash]
      have hjoin : slashJoin (l' :: ls') = '/' :: (l' ++ slashJoin ls') := rfl
      rw [hjoin]
      unfold segsOfChars
      rw [splitSlash_append l _ hl.1]
      simp only [List.filter_cons, decide_eq_true_eq]
      rw [if_pos hl.2]
      have ihr2 : List.filter (fun s => decide (s ≠ [])) (splitSlash (l' ++ slashJoin ls')) =
          l' :: ls' := by
        have h1 := ihr
        rw [hjoin] at h1
        show segsOfChars (l' ++ slashJoin ls') = l' :: ls'
        rw [← segsOfChars_cons_slash (l' ++ slashJoin ls')]
        exact h1
      rw [ihr2]

theorem str_ext {s t : String} (h : s.data = t.data) : s = t :=
  congrArg String.mk h

theorem data_append (s t : String) : (s ++ t).data = s.data ++ t.data := by
  cases s; cases t; rfl

theorem data_ne_nil_iff (s : String) : s ≠ "" ↔ s.data ≠ [] := by
  constructor
  · intro h hd
    exact h (str_ext (by rw [hd]))
  · intro h he
    subst he
    exact h rfl

theorem childPath_ne (p nm : String) (hp : p ≠ "") (hnm : nm ≠ "") :
    childPath p nm ≠ "/" ∧ childPath p nm ≠ "" := by
  have hpd : p.data ≠ [] := (data_ne_nil_iff p).1 hp
  have hnd : nm.data ≠ [] := (data_ne_nil_iff nm).1 hnm
  unfold childPath
  split
  · rename_i hroot
    subst hroot
    constructor
    · intro h
      have := congrArg String.data h
      rw [data_append] at this
      simp only [show ("/" : String).data = ['/'] from rfl] at this
      cases hd : nm.data with
      | nil => exact hnd hd
      | cons a as => rw [hd] at this; simp at this
    · intro h
      have := congrArg String.data h
      rw [data_append] at this
      simp only [show ("" : String).data = [] from rfl] at this
      simp at this
  · constructor
    · intro h
      have := congrArg String.data h
      rw [data_append, data_append] at this
      simp only [show ("/" : String).data = ['/'] from rfl] at this
      cases hd : p.data with
      | nil => exact hpd hd
      | cons a as =>
        rw [hd] at this
        simp only [List.cons_append, List.append_assoc] at this
        have h2 := congrArg List.length this
        simp at h2
    · intro h
      have := congrArg String.data h
      rw [data_append, data_append] at this
      simp only [show ("" : String).data = [] from rfl] at this
      cases hd : p.data with
      | nil => exact hpd hd
      | cons a as => rw [hd] at this; simp at this

theorem childPath_data_of_ne_root (p nm : String) (hp : p ≠ "/") :
    (childPath p nm).data = p.data ++ '/' :: nm.data := by
  unfold childPath
  rw [if_neg hp, data_append, data_append]
  simp [show ("/" : String).data = ['/'] from rfl]

theorem extendPath_data (ls : List (List Char)) :
    ∀ (p : String), p ≠ "" → p ≠ "/" → (∀ x ∈ ls, x ≠ []) →
    (extendPath p (ls.map String.mk)).data = p.data ++ slashJoin ls := by
  induction ls with
  | nil => intro p _ _ _; simp [extendPath, slashJoin]
  | cons l ls ih =>
    intro p hp hp2 hmem
    have hl : l ≠ [] := hmem l (List.mem_cons_self _ _)
    have hrest : ∀ x ∈ ls, x ≠ [] := fun x hx => hmem x (List.mem_cons_of_mem _ hx)
    have hmk : (String.mk l) ≠ "" := by
      rw [data_ne_nil_iff]; simpa using hl
    have hnext := childPath_ne p (String.mk l) hp hmk
    have hstep : extendPath p (List.map String.mk (l :: ls)) =
        extendPath (childPath p (String.mk l)) (List.map String.mk ls) := rfl
    rw [hstep, ih (childPath p (String.mk l)) hnext.2 hnext.1 hrest]
    rw [childPath_data_of_ne_root p (String.mk l) hp2]
    simp [slashJoin]

theorem mem_pathSegs_ne_empty (p : String) : ∀ s ∈ pathSegs p, s ≠ "" := by
  intro s hs
  rcases List.mem_map.1 hs with ⟨l, hl, hmk⟩
  have hne := (mem_segsOfChars p.data l hl).2
  subst hmk
  rw [data_ne_nil_iff]
  simpa using hne

theorem namesOfL_cons (c : FSNode) (cs : List FSNode) :
    namesOfL (c :: cs) = nameOf c :: namesOfL cs := rfl

theorem memStr_append (x : String) (l1 l2 : List String) :
    memStr x (l1 ++ l2) = (memStr x l1 || memStr x l2) := by
  induction l1 with
  | nil => simp [memStr]
  | cons a l1 ih => simp [memStr, ih, Bool.or_assoc]

theorem nodupStr_append_one (ns : List String) (x : String)
    (h : nodupStr ns = true) (hx : memStr x ns = false) :
    nodupStr (ns ++ [x]) = true := by
  induction ns with
  | nil => simp [nodupStr, memStr]
  | cons a ns ih =>
    simp only [nodupStr, Bool.and_eq_true, Bool.not_eq_true'] at h
    simp only [memStr, Bool.or_eq_false_iff] at hx
    simp only [List.cons_append, nodupStr, Bool.and_eq_true, Bool.not_eq_true']
    refine ⟨?_, ih h.2 hx.2⟩
    show memStr a (ns ++ [x]) = false
    rw [memStr_append, h.1, Bool.false_or]
    have hax : (x == a) = false := by
      cases hb : (x == a) with
      | false => rfl
      | true =>
        have hxa : x = a := beq_iff_eq.1 hb
        rw [hxa] at hx
        simp at hx
    simp [memStr, hax]

theorem findChild_name {s : String} {cs : List FSNode} {c : FSNode}
    (h : findChild s cs = some c) : nameOf c = s := by
  induction cs with
  | nil => simp [findChild] at h
  | cons c0 cs ih =>
    simp only [findChild] at h
    by_cases he : nameOf c0 == s
    · rw [if_pos he] at h
      cases h
      exact beq_iff_eq.1 he
    · rw [if_neg he] at h
      exact ih h

theorem findChild_of_memStr_false {s : String} {cs : List FSNode}
    (h : memStr s (namesOfL cs) = false) : findChild s cs = none := by
  induction cs with
  | nil => rfl
  | cons c0 cs ih =>
    simp only [namesOfL_cons, memStr, Bool.or_eq_false_iff] at h
    simp only [findChild, if_neg (by simp [h.1] : ¬(nameOf c0 == s) = true)]
    exact ih h.2

theorem memStr_false_of_findChild_none {s : String} {cs : List FSNode}
    (h : findChild s cs = none) : memStr s (namesOfL cs) = false := by
  induction cs with
  | nil => rfl
  | cons c0 cs ih =>
    simp only [findChild] at h
    by_cases he : nameOf c0 == s
    · rw [if_pos he] at h; cases h
    · rw [if_neg he] at h
      simp only [namesOfL_cons, memStr, Bool.or_eq_false_iff]
      exact ⟨by simpa using he, ih h⟩

theorem namesOfL_replaceChild (s : String) (c' : FSNode) (cs : List FSNode)
    (h : nameOf c' = s) : namesOfL (replaceChild s c' cs) = namesOfL cs := by
  induction cs with
  | nil => rfl
  | cons c0 cs ih =>
    simp only [replaceChild]
    by_cases he : nameOf c0 == s
    · rw [if_pos he]
      simp only [namesOfL_cons, h]
      rw [beq_iff_eq.1 he]
    · rw [if_neg he]
      simp only [namesOfL_cons] at ih ⊢
      rw [ih]

theorem findChild_replaceChild {s : String} {c c' : FSNode} {cs : List FSNode}
    (h : findChild s cs = some c) (hn : nameOf c' = s) :
    findChild s (replaceChild s c' cs) = some c' := by
  induction cs with
  | nil => simp [findChild] at h
  | cons c0 cs ih =>
    simp only [findChild] at h
    simp only [replaceChild]
    by_cases he : nameOf c0 == s
    · rw [if_pos he] at h
      rw [if_pos he]
      simp [findChild, hn]
    · rw [if_neg he] at h
      rw [if_neg he]
      simp only [findChild, if_neg he]
      exact ih h

theorem wfChildren_find {p s : String} {cs : List FSNode} {c : FSNode}
    (hwf : wfChildren p cs = true) (h : findChild s cs = some c) :
    nameOf c = s ∧ nameOf c ≠ "" ∧ pathOf c = childPath p s ∧ wfN c = true := by
  induction cs with
  | nil => simp [findChild] at h
  | cons c0 cs ih =>
    simp only [wfChildren, Bool.and_eq_true, decide_eq_true_eq, beq_iff_eq] at hwf
    simp only [findChild] at h
    by_cases he : nameOf c0 == s
    · rw [if_pos he] at h
      cases h
      have hs := beq_iff_eq.1 he
      exact ⟨hs, hwf.1.1.1, by rw [← hs]; exact hwf.1.1.2, hwf.1.2⟩
    · rw [if_neg he] at h
      exact ih hwf.2 h

theorem wfChildren_replaceChild {p s : String} {cs : List FSNode} {c c' : FSNode}
    (hwf : wfChildren p cs = true) (h : findChild s cs = some c)
    (hn : nameOf c' = nameOf c) (hp : pathOf c' = pathOf c) (hw : wfN c' = true) :
    wfChildren p (replaceChild s c' cs) = true := by
  induction cs with
  | nil => simp [findChild] at h
  | cons c0 cs ih =>
    simp only [wfChildren, Bool.and_eq_true, decide_eq_true_eq, beq_iff_eq] at hwf
    simp only [findChild] at h
    simp only [replaceChild]
    by_cases he : nameOf c0 == s
    · rw [if_pos he] at h ⊢
      cases h
      simp only [wfChildren, Bool.and_eq_true, decide_eq_true_eq, beq_iff_eq]
      exact ⟨⟨⟨by rw [hn]; exact hwf.1.1.1, by rw [hn, hp]; exact hwf.1.1.2⟩, hw⟩, hwf.2⟩
    · rw [if_neg he] at h ⊢
      simp only [wfChildren, Bool.and_eq_true, decide_eq_true_eq, beq_iff_eq]
      exact ⟨⟨⟨hwf.1.1.1, hwf.1.1.2⟩, hwf.1.2⟩, ih hwf.2 h⟩

theorem namesOfL_append_one (cs : List FSNode) (x : FSNode) :
    namesOfL (cs ++ [x]) = namesOfL cs ++ [nameOf x] := by
  simp [namesOfL]

theorem wfChildren_append_one {p : String} {cs : List FSNode} {x : FSNode}
    (hwf : wfChildren p cs = true) (hx : nameOf x ≠ "")
    (hpx : pathOf x = childPath p (nameOf x)) (hw : wfN x = true) :
    wfChildren p (cs ++ [x]) = true := by
  induction cs with
  | nil => simp [wfChildren, hx, hpx, hw]
  | cons c0 cs ih =>
    simp only [wfChildren, Bool.and_eq_true] at hwf
    simp only [List.cons_append, wfChildren, Bool.and_eq_true]
    exact ⟨hwf.1, ih hwf.2⟩

theorem wfChildren_removeChild {p s : String} {cs : List FSNode}
    (hwf : wfChildren p cs = true) : wfChildren p (removeChild s cs) = true := by
  induction cs with
  | nil => rfl
  | cons c0 cs ih =>
    simp only [wfChildren, Bool.and_eq_true] at hwf
    simp only [removeChild]
    by_cases he : nameOf c0 == s
    · rw [if_pos he]; exact hwf.2
    · rw [if_neg he]
      simp only [wfChildren, Bool.and_eq_true]
      exact ⟨hwf.1, ih hwf.2⟩

theorem memStr_namesOfL_removeChild {x s : String} {cs : List FSNode}
    (h : memStr x (namesOfL (removeChild s cs)) = true) :
    memStr x (namesOfL cs) = true := by
  induction cs with
  | nil => simp [removeChild, namesOfL, memStr] at h
  | cons c0 cs ih =>
    simp only [removeChild] at h
    by_cases he : nameOf c0 == s
    · rw [if_pos he] at h
      simp only [namesOfL_cons, memStr, Bool.or_eq_true]
      right
      exact h
    · rw [if_neg he] at h
      simp only [namesOfL_cons, memStr, Bool.or_eq_true] at h ⊢
      rcases h with h | h
      · exact Or.inl h
      · exact Or.inr (ih h)

theorem nodupStr_namesOfL_removeChild {s : String} {cs : List FSNode}
    (h : nodupStr (namesOfL cs) = true) :
    nodupStr (namesOfL (removeChild s cs)) = true := by
  induction cs with
  | nil => rfl
  | cons c0 cs ih =>
    simp only [namesOfL_cons, nodupStr, Bool.and_eq_true,
      Bool.not_eq_true'] at h
    simp only [removeChild]
    by_cases he : nameOf c0 == s
    · rw [if_pos he]; exact h.2
    · rw [if_neg he]
      show nodupStr (namesOfL (c0 :: removeChild s cs)) = true
      rw [namesOfL_cons]
      simp only [nodupStr, Bool.and_eq_true, Bool.not_eq_true']
      refine ⟨?_, ih h.2⟩
      cases hm : memStr (nameOf c0) (namesOfL (removeChild s cs)) with
      | false => rfl
      | true =>
        have h3 := memStr_namesOfL_removeChild hm
        have h4 : memStr (nameOf c0) (namesOfL cs) = false := h.1
        rw [h3] at h4
        cases h4

theorem findChild_removeChild {s : String} {cs : List FSNode}
    (h : nodupStr (namesOfL cs) = true) :
    findChild s (removeChild s cs) = none := by
  induction cs with
  | nil => rfl
  | cons c0 cs ih =>
    simp only [namesOfL_cons, nodupStr, Bool.and_eq_true,
      Bool.not_eq_true'] at h
    simp only [removeChild]
    by_cases he : nameOf c0 == s
    · rw [if_pos he]
      apply findChild_of_memStr_false
      rw [← beq_iff_eq.1 he]
      exact h.1
    · rw [if_neg he]
      simp only [findChild, if_neg he]
      exact ih h.2

theorem findChild_append_one {s : String} {cs : List FSNode} {x : FSNode}
    (h : findChild s cs = none) :
    findChild s (cs ++ [x]) = if nameOf x == s then some x else none := by
  induction cs with
  | nil => rfl
  | cons c0 cs ih =>
    simp only [findChild] at h
    by_cases he : nameOf c0 == s
    · rw [if_pos he] at h; cases h
    · rw [if_neg he] at h
      simp only [List.cons_append, findChild, if_neg he]
      exact ih h

theorem lookupSegs_append (xs ys : List String) :
    ∀ t : FSNode, lookupSegs (xs ++ ys) t =
      (lookupSegs xs t).bind (fun n => lookupSegs ys n) := by
  induction xs with
  | nil => intro t; rfl
  | cons s rest ih =>
    intro t
    cases t with
    | file nm p c => rfl
    | dir nm p cs =>
      show (match findChild s cs with
        | none => none
        | some c => lookupSegs (rest ++ ys) c) = _
      cases hfc : findChild s cs with
      | none => simp [lookupSegs, hfc]
      | some c => simp [lookupSegs, hfc, ih c]

theorem extendPath_nil (p : String) : extendPath p [] = p := rfl

theorem extendPath_cons (p s : String) (rest : List String) :
    extendPath p (s :: rest) = extendPath (childPath p s) rest := rfl

theorem extendPath_append (p : String) (xs ys : List String) :
    extendPath p (xs ++ ys) = extendPath (extendPath p xs) ys := by
  simp [extendPath, List.foldl_append]

theorem lookupSegs_wfN : ∀ (ss : List String) (t d : FSNode),
    wfN t = true → lookupSegs ss t = some d →
    wfN d = true ∧ pathOf d = extendPath (pathOf t) ss ∧ ∀ s ∈ ss, s ≠ "" := by
  intro ss
  induction ss with
  | nil =>
    intro t d hwf h
    cases h
    exact ⟨hwf, rfl, by simp⟩
  | cons s rest ih =>
    intro t d hwf h
    cases t with
    | file nm p c => simp [lookupSegs] at h
    | dir nm p cs =>
      simp only [wfN, Bool.and_eq_true] at hwf
      show _ ∧ pathOf d = extendPath (pathOf (FSNode.dir nm p cs)) (s :: rest) ∧ _
      simp only [lookupSegs] at h
      cases hfc : findChild s cs with
      | none => rw [hfc] at h; cases h
      | some c =>
        rw [hfc] at h
        have hfind := wfChildren_find hwf.2 hfc
        have hrec := ih c d hfind.2.2.2 h
        refine ⟨hrec.1, ?_, ?_⟩
        · rw [show pathOf (FSNode.dir nm p cs) = p from rfl, extendPath_cons,
            hrec.2.1, hfind.2.2.1]
        · intro x hx
          rcases List.mem_cons.1 hx with hx | hx
          · subst hx; exact hfind.1 ▸ hfind.2.1
          · exact hrec.2.2 x hx

theorem updateAt_ok {e : PathError} {f : FSNode → Except PathError FSNode}
    (hf : ∀ n n', f n = .ok n' →
      nameOf n' = nameOf n ∧ pathOf n' = pathOf n ∧ isDir n' = isDir n) :
    ∀ (ss : List String) (t t' : FSNode), updateAt e f ss t = .ok t' →
    (∃ n n', lookupSegs ss t = some n ∧ f n = .ok n' ∧ lookupSegs ss t' = some n') ∧
      nameOf t' = nameOf t ∧ pathOf t' = pathOf t ∧ isDir t' = isDir t := by
  intro ss
  induction ss with
  | nil =>
    intro t t' h
    have h' : f t = .ok t' := h
    exact ⟨⟨t, t', rfl, h', rfl⟩, hf t t' h'⟩
  | cons s rest ih =>
    intro t t' h
    cases t with
    | file nm p c => simp [updateAt] at h
    | dir nm p cs =>
      cases hfc : findChild s cs with
      | none =>
        simp only [updateAt, hfc] at h
        exact Except.noConfusion h
      | some c =>
        simp only [updateAt, hfc] at h
        cases hup : updateAt e f rest c with
        | error e' => rw [hup] at h; exact Except.noConfusion h
        | ok c' =>
          rw [hup] at h
          cases h
          have hrec := ih c c' hup
          rcases hrec with ⟨⟨n, n', hl, hfn, hl'⟩, hname, hpath, hdir⟩
          refine ⟨⟨n, n', ?_, hfn, ?_⟩, rfl, rfl, rfl⟩
          · simp [lookupSegs, hfc, hl]
          · have hcname : nameOf c' = s := by
              rw [hname]; exact findChild_name hfc
            have hfr := findChild_replaceChild hfc hcname
            simp [lookupSegs, hfr, hl']

theorem updateAt_wf {e : PathError} {f : FSNode → Except PathError FSNode}
    (hf : ∀ n n', f n = .ok n' → wfN n = true →
      wfN n' = true ∧ nameOf n' = nameOf n ∧ pathOf n' = pathOf n ∧
        isDir n' = isDir n) :
    ∀ (ss : List String) (t t' : FSNode), wfN t = true → updateAt e f ss t = .ok t' →
    wfN t' = true ∧ nameOf t' = nameOf t ∧ pathOf t' = pathOf t ∧
      isDir t' = isDir t := by
  intro ss
  induction ss with
  | nil =>
    intro t t' hwf h
    exact hf t t' h hwf
  | cons s rest ih =>
    intro t t' hwf h
    cases t with
    | file nm p c => simp [updateAt] at h
    | dir nm p cs =>
      simp only [wfN, Bool.and_eq_true] at hwf
      cases hfc : findChild s cs with
      | none =>
        simp only [updateAt, hfc] at h
        exact Except.noConfusion h
      | some c =>
        simp only [updateAt, hfc] at h
        cases hup : updateAt e f rest c with
        | error e' => rw [hup] at h; exact Except.noConfusion h
        | ok c' =>
          rw [hup] at h
          cases h
          have hfind := wfChildren_find hwf.2 hfc
          have hrec := ih c c' hfind.2.2.2 hup
          refine ⟨?_, rfl, rfl, rfl⟩
          show wfN (FSNode.dir nm p (replaceChild s c' cs)) = true
          simp only [wfN, Bool.and_eq_true]
          constructor
          · rw [namesOfL_replaceChild s c' cs (by rw [hrec.2.1]; exact hfind.1)]
            exact hwf.1
          · exact wfChildren_replaceChild hwf.2 hfc hrec.2.1 hrec.2.2.1 hrec.1

theorem wfRoot_parts {t : FSNode} (h : wfRoot t = true) :
    nameOf t = "" ∧ pathOf t = "/" ∧ isDir t = true ∧ wfN t = true := by
  simp only [wfRoot, Bool.and_eq_true, beq_iff_eq] at h
  exact ⟨h.1.1.1, h.1.1.2, h.1.2, h.2⟩

theorem wfRoot_build {t : FSNode} (h1 : nameOf t = "") (h2 : pathOf t = "/")
    (h3 : isDir t = true) (h4 : wfN t = true) : wfRoot t = true := by
  simp [wfRoot, h1, h2, h3, h4]

theorem wfRoot_of_updateAt {e : PathError} {f : FSNode → Except PathError FSNode}
    (hf : ∀ n n', f n = .ok n' → wfN n = true →
      wfN n' = true ∧ nameOf n' = nameOf n ∧ pathOf n' = pathOf n ∧
        isDir n' = isDir n)
    {ss : List String} {t t' : FSNode} (hwf : wfRoot t = true)
    (h : updateAt e f ss t = .ok t') : wfRoot t' = true := by
  have hp := wfRoot_parts hwf
  have h2 := updateAt_wf hf ss t t' hp.2.2.2 h
  exact wfRoot_build (by rw [h2.2.1]; exact hp.1) (by rw [h2.2.2.1]; exact hp.2.1)
    (by rw [h2.2.2.2]; exact hp.2.2.1) h2.1

theorem removeChildF_wf {nm : String} {n n' : FSNode}
    (h : removeChildF nm n = .ok n') (hwf : wfN n = true) :
    wfN n' = true ∧ nameOf n' = nameOf n ∧ pathOf n' = pathOf n ∧
      isDir n' = isDir n := by
  cases n with
  | file _ _ _ => exact Except.noConfusion h
  | dir dn dp cs =>
    simp only [removeChildF] at h
    split at h
    · cases h
      simp only [wfN, Bool.and_eq_true] at hwf
      refine ⟨?_, rfl, rfl, rfl⟩
      simp only [wfN, Bool.and_eq_true]
      exact ⟨nodupStr_namesOfL_removeChild hwf.1, wfChildren_removeChild hwf.2⟩
    · exact Except.noConfusion h

theorem setContentF_wf {content : String} {n n' : FSNode}
    (h : setContentF content n = .ok n') (hwf : wfN n = true) :
    wfN n' = true ∧ nameOf n' = nameOf n ∧ pathOf n' = pathOf n ∧
      isDir n' = isDir n := by
  cases n with
  | file nm pth c =>
    cases h
    exact ⟨rfl, rfl, rfl, rfl⟩
  | dir _ _ _ => exact Except.noConfusion h

theorem appendChildF_wf {nm : String} {mk : String → FSNode}
    (hnm : nm ≠ "")
    (hmk : ∀ pth, nameOf (mk pth) = nm ∧ pathOf (mk pth) = pth ∧
      wfN (mk pth) = true)
    {n n' : FSNode} (h : appendChildF nm mk n = .ok n') (hwf : wfN n = true) :
    wfN n' = true ∧ nameOf n' = nameOf n ∧ pathOf n' = pathOf n ∧
      isDir n' = isDir n := by
  cases n with
  | file _ _ _ => exact Except.noConfusion h
  | dir dn dp cs =>
    simp only [appendChildF] at h
    split at h
    · exact Except.noConfusion h
    · rename_i hfind
      cases h
      have hfc : findChild nm cs = none := by
        cases hx : findChild nm cs with
        | none => rfl
        | some c => rw [hx] at hfind; simp at hfind
      simp only [wfN, Bool.and_eq_true] at hwf
      have hm := hmk (childPath dp nm)
      refine ⟨?_, rfl, rfl, rfl⟩
      simp only [wfN, Bool.and_eq_true]
      constructor
      · rw [namesOfL_append_one, hm.1]
        exact nodupStr_append_one _ _ hwf.1 (memStr_false_of_findChild_none hfc)
      · exact wfChildren_append_one hwf.2 (by rw [hm.1]; exact hnm)
          (by rw [hm.1, hm.2.1]) hm.2.2

theorem nameOf_reroot (nm pth : String) (n : FSNode) :
    nameOf (reroot nm pth n) = nm := by
  cases n <;> rfl

theorem pathOf_reroot (nm pth : String) (n : FSNode) :
    pathOf (reroot nm pth n) = pth := by
  cases n <;> rfl

theorem isDir_reroot (nm pth : String) (n : FSNode) :
    isDir (reroot nm pth n) = isDir n := by
  cases n <;> rfl

theorem contentOf_reroot (nm pth : String) (n : FSNode) :
    contentOf (reroot nm pth n) = contentOf n := by
  cases n <;> rfl

theorem namesOfL_rerootList (pth : String) (cs : List FSNode) :
    namesOfL (rerootList pth cs) = namesOfL cs := by
  induction cs with
  | nil => rfl
  | cons c cs ih =>
    show namesOfL (reroot (nameOf c) (childPath pth (nameOf c)) c :: rerootList pth cs) = _
    rw [namesOfL_cons, namesOfL_cons, nameOf_reroot, ih]

theorem childNames_reroot (nm pth : String) (n : FSNode) :
    childNames (reroot nm pth n) = childNames n := by
  cases n with
  | file _ _ _ => rfl
  | dir dn dp cs =>
    show childNames (FSNode.dir nm pth (rerootList pth cs)) = _
    show namesOfL (rerootList pth cs) = namesOfL cs
    exact namesOfL_rerootList pth cs

mutual

theorem reroot_wfN (n : FSNode) (nm pth : String) (h : wfN n = true) :
    wfN (reroot nm pth n) = true := by
  cases n with
  | file _ _ _ => rfl
  | dir dn dp cs =>
    show wfN (FSNode.dir nm pth (rerootList pth cs)) = true
    simp only [wfN, Bool.and_eq_true] at h ⊢
    exact ⟨by rw [namesOfL_rerootList]; exact h.1, rerootList_wf cs dp pth h.2⟩

theorem rerootList_wf (cs : List FSNode) (p pth : String)
    (h : wfChildren p cs = true) : wfChildren pth (rerootList pth cs) = true := by
  cases cs with
  | nil => rfl
  | cons c cs =>
    simp only [wfChildren, Bool.and_eq_true, decide_eq_true_eq, beq_iff_eq] at h
    show wfChildren pth (reroot (nameOf c) (childPath pth (nameOf c)) c ::
      rerootList pth cs) = true
    simp only [wfChildren, Bool.and_eq_true, decide_eq_true_eq, beq_iff_eq]
    refine ⟨⟨⟨?_, ?_⟩, ?_⟩, ?_⟩
    · rw [nameOf_reroot]; exact h.1.1.1
    · rw [nameOf_reroot, pathOf_reroot]
    · exact reroot_wfN c (nameOf c) (childPath pth (nameOf c)) h.1.2
    · exact rerootList_wf cs p pth h.2

end

theorem findChild_rerootList (s pth : String) (cs : List FSNode) :
    findChild s (rerootList pth cs) =
      (findChild s cs).map (fun c => reroot (nameOf c) (childPath pth (nameOf c)) c) := by
  induction cs with
  | nil => rfl
  | cons c cs ih =>
    show findChild s (reroot (nameOf c) (childPath pth (nameOf c)) c ::
      rerootList pth cs) = _
    simp only [findChild, nameOf_reroot]
    by_cases he : nameOf c == s
    · rw [if_pos he, if_pos he]; rfl
    · rw [if_neg he, if_neg he]; exact ih

theorem lookupSegs_reroot : ∀ (ss : List String) (nm pth : String) (n : FSNode),
    lookupSegs ss (reroot nm pth n) =
      (lookupSegs ss n).map (fun d =>
        reroot (if ss.isEmpty then nm else nameOf d) (extendPath pth ss) d) := by
  intro ss
  induction ss with
  | nil => intro nm pth n; simp [lookupSegs, extendPath]
  | cons s rest ih =>
    intro nm pth n
    cases n with
    | file fn fp fc => rfl
    | dir dn dp cs =>
      show lookupSegs (s :: rest) (FSNode.dir nm pth (rerootList pth cs)) = _
      simp only [lookupSegs, findChild_rerootList]
      cases hfc : findChild s cs with
      | none => rfl
      | some c =>
        simp only [Option.map_some']
        rw [ih (nameOf c) (childPath pth (nameOf c)) c]
        have hcs : nameOf c = s := findChild_name hfc
        cases hrest : lookupSegs rest c with
        | none => rfl
        | some d =>
          simp only [Option.map_some']
          cases rest with
          | nil =>
            cases hrest
            simp [extendPath_cons, hcs]
          | cons r rs =>
            simp [extendPath_cons, hcs]

theorem createWith_wfRoot {mkN : String → String → FSNode}
    (hmk : ∀ nm pth, nameOf (mkN nm pth) = nm ∧ pathOf (mkN nm pth) = pth ∧
      wfN (mkN nm pth) = true)
    {t t' : FSNode} {p : String} (hwf : wfRoot t = true)
    (h : createWith mkN t p = .ok t') : wfRoot t' = true := by
  simp only [createWith] at h
  split at h
  · exact Except.noConfusion h
  · rename_i hss
    split at h
    · exact Except.noConfusion h
    · refine wfRoot_of_updateAt ?_ hwf h
      intro n n' hfn hwfn
      exact appendChildF_wf (mem_pathSegs_ne_empty p _ (List.getLast_mem hss))
        (fun pth => hmk ((pathSegs p).getLast hss) pth) hfn hwfn

theorem create_wfRoot {t t' : FSNode} {p c : String} (hwf : wfRoot t = true)
    (h : create t p c = .ok t') : wfRoot t' = true := by
  refine createWith_wfRoot ?_ hwf h
  intro nm pth
  exact ⟨rfl, rfl, rfl⟩

theorem createDir_wfRoot {t t' : FSNode} {p : String} (hwf : wfRoot t = true)
    (h : createDir t p = .ok t') : wfRoot t' = true := by
  refine createWith_wfRoot ?_ hwf h
  intro nm pth
  exact ⟨rfl, rfl, rfl⟩

theorem update_wfRoot {t t' : FSNode} {p c : String} (hwf : wfRoot t = true)
    (h : update t p c = .ok t') : wfRoot t' = true := by
  refine wfRoot_of_updateAt ?_ hwf h
  intro n n' hfn hwfn
  exact setContentF_wf hfn hwfn

theorem delete_wfRoot {t t' : FSNode} {p : String} (hwf : wfRoot t = true)
    (h : delete t p = .ok t') : wfRoot t' = true := by
  simp only [delete] at h
  split at h
  · exact Except.noConfusion h
  · split at h
    · exact wfRoot_of_updateAt (fun a a' hfn hwfa => removeChildF_wf hfn hwfa) hwf h
    · exact Except.noConfusion h

theorem rename_wfRoot {t t' : FSNode} {oldP newP : String} (hwf : wfRoot t = true)
    (h : rename t oldP newP = .ok t') : wfRoot t' = true := by
  simp only [rename] at h
  split at h
  · exact Except.noConfusion h
  · rename_i hos
    cases hlk : lookupSegs (pathSegs oldP) t with
    | none =>
      simp only [hlk] at h
      exact Except.noConfusion h
    | some n =>
      simp only [hlk] at h
      split at h
      · exact Except.noConfusion h
      · rename_i hns
        split at h
        · exact Except.noConfusion h
        · split at h
          · exact Except.noConfusion h
          · rename_i t1 hrem
            have hwfn : wfN n = true :=
              (lookupSegs_wfN (pathSegs oldP) t n (wfRoot_parts hwf).2.2.2 hlk).1
            have hwf1 : wfRoot t1 = true :=
              wfRoot_of_updateAt (fun a a' hfn hwfa => removeChildF_wf hfn hwfa)
                hwf hrem
            refine wfRoot_of_updateAt ?_ hwf1 h
            intro a a' hfn hwfa
            refine appendChildF_wf
              (mem_pathSegs_ne_empty newP _ (List.getLast_mem hns)) ?_ hfn hwfa
            intro pth
            exact ⟨nameOf_reroot _ _ _, pathOf_reroot _ _ _, reroot_wfN n _ _ hwfn⟩

theorem reachable_wfRoot {t : FSNode} (h : Reachable t) : wfRoot t = true := by
  induction h with
  | base => rfl
  | ofCreate t0 t1 p c _ hop ih => exact create_wfRoot ih hop
  | ofCreateDir t0 t1 p _ hop ih => exact createDir_wfRoot ih hop
  | ofUpdate t0 t1 p c _ hop ih => exact update_wfRoot ih hop
  | ofDelete t0 t1 p _ hop ih => exact delete_wfRoot ih hop
  | ofRename t0 t1 o n2 _ hop ih => exact rename_wfRoot ih hop

mutual

theorem deserializeNode_serialize (n : FSNode) : ∀ (pp : String),
    wfN n = true → pathOf n = childPath pp (nameOf n) →
    deserializeNode pp (serialize n) = .ok n := by
  cases n with
  | file nm p c =>
    intro pp _ hpath
    have hp : p = childPath pp nm := hpath
    subst hp
    rfl
  | dir nm p cs =>
    intro pp hwf hpath
    have hp : p = childPath pp nm := hpath
    subst hp
    simp only [wfN, Bool.and_eq_true] at hwf
    have hch := deserializeList_serializeList cs (childPath pp nm) hwf.2
    show (match deserializeList (childPath pp nm) (serializeList cs) with
      | .error e => (.error e : Except FmtError FSNode)
      | .ok cs' =>
        if nodupStr (namesOfL cs') = true then
          .ok (FSNode.dir nm (childPath pp nm) cs')
        else .error .invalidFormat) = .ok (FSNode.dir nm (childPath pp nm) cs)
    rw [hch]
    simp only [hwf.1, if_pos]

theorem deserializeList_serializeList (cs : List FSNode) : ∀ (p : String),
    wfChildren p cs = true →
    deserializeList p (serializeList cs) = .ok cs := by
  cases cs with
  | nil => intro p _; rfl
  | cons c cs =>
    intro p hwf
    simp only [wfChildren, Bool.and_eq_true, decide_eq_true_eq, beq_iff_eq] at hwf
    show (match deserializeNode p (serialize c) with
      | .error e => (.error e : Except FmtError (List FSNode))
      | .ok n =>
        match deserializeList p (serializeList cs) with
        | .error e => .error e
        | .ok ns => .ok (n :: ns)) = .ok (c :: cs)
    rw [deserializeNode_serialize c p hwf.1.2 hwf.1.1.2,
      deserializeList_serializeList cs p hwf.2]

end

theorem deserialize_serialize {t : FSNode} (hwf : wfRoot t = true) :
    deserialize (serialize t) = .ok t := by
  have hp := wfRoot_parts hwf
  cases t with
  | file _ _ _ => simp [isDir] at hp
  | dir nm p cs =>
    have hnm : nm = "" := hp.1
    have hpp : p = "/" := hp.2.1
    subst hnm; subst hpp
    simp only [wfN, Bool.and_eq_true] at hp
    have hch := deserializeList_serializeList cs "/" hp.2.2.2.2
    show (match deserializeList "/" (serializeList cs) with
      | .error e => (.error e : Except FmtError FSNode)
      | .ok cs' =>
        if nodupStr (namesOfL cs') = true then .ok (FSNode.dir "" "/" cs')
        else .error .invalidFormat) = .ok (FSNode.dir "" "/" cs)
    rw [hch]
    simp only [hp.2.2.2.1, if_pos]

theorem deserializeNode_name {pp : String} {b : Blob} {n : FSNode}
    (h : deserializeNode pp b = .ok n) : nameOf n = blobNameOf b := by
  cases b with
  | node tag nmo co cho =>
    cases tag with
    | none =>
      exact Except.noConfusion
        (show (Except.error FmtError.invalidFormat : Except FmtError FSNode) =
          .ok n from h)
    | some tg =>
      cases nmo with
      | none =>
        have h' : (if (tg == "file") = true then
              (Except.error FmtError.invalidFormat : Except FmtError FSNode)
            else if (tg == "directory") = true then
              Except.error FmtError.invalidFormat
            else Except.error FmtError.invalidFormat) = .ok n := h
        by_cases hf : (tg == "file") = true
        · rw [if_pos hf] at h'; exact Except.noConfusion h'
        · rw [if_neg hf] at h'
          by_cases hd : (tg == "directory") = true
          · rw [if_pos hd] at h'; exact Except.noConfusion h'
          · rw [if_neg hd] at h'; exact Except.noConfusion h'
      | some nm =>
        show nameOf n = nm
        cases co with
        | none =>
          cases cho with
          | none =>
            have h' : (if (tg == "file") = true then
                  (Except.error FmtError.invalidFormat : Except FmtError FSNode)
                else if (tg == "directory") = true then
                  Except.error FmtError.invalidFormat
                else Except.error FmtError.invalidFormat) = .ok n := h
            by_cases hf : (tg == "file") = true
            · rw [if_pos hf] at h'; exact Except.noConfusion h'
            · rw [if_neg hf] at h'
              by_cases hd : (tg == "directory") = true
              · rw [if_pos hd] at h'; exact Except.noConfusion h'
              · rw [if_neg hd] at h'; exact Except.noConfusion h'
          | some cbs =>
            have h' : (if (tg == "file") = true then
                  (Except.error FmtError.invalidFormat : Except FmtError FSNode)
                else if (tg == "directory") = true then
                  (match deserializeList (childPath pp nm) cbs with
                   | Except.error e => (Except.error e : Except FmtError FSNode)
                   | Except.ok cs =>
                     if nodupStr (namesOfL cs) = true then
                       Except.ok (FSNode.dir nm (childPath pp nm) cs)
                     else Except.error FmtError.invalidFormat)
                else Except.error FmtError.invalidFormat) = .ok n := h
            by_cases hf : (tg == "file") = true
            · rw [if_pos hf] at h'; exact Except.noConfusion h'
            · rw [if_neg hf] at h'
              by_cases hd : (tg == "directory") = true
              · rw [if_pos hd] at h'
                cases hdl : deserializeList (childPath pp nm) cbs with
                | error e =>
                  rw [hdl] at h'
                  exact Except.noConfusion h'
                | ok cs =>
                  rw [hdl] at h'
                  have h2 : (if nodupStr (namesOfL cs) = true then
                        Except.ok (FSNode.dir nm (childPath pp nm) cs)
                      else (Except.error FmtError.invalidFormat :
                        Except FmtError FSNode)) = Except.ok n := h'
                  by_cases hn2 : nodupStr (namesOfL cs) = true
                  · rw [if_pos hn2] at h2
                    cases h2
                    rfl
                  · rw [if_neg hn2] at h2
                    exact Except.noConfusion h2
              · rw [if_neg hd] at h'; exact Except.noConfusion h'
        | some c =>
          cases cho with
          | none =>
            have h' : (if (tg == "file") = true then
                  Except.ok (FSNode.file nm (childPath pp nm) c)
                else if (tg == "directory") = true then
                  Except.error FmtError.invalidFormat
                else Except.error FmtError.invalidFormat) = .ok n := h
            by_cases hf : (tg == "file") = true
            · rw [if_pos hf] at h'; cases h'; rfl
            · rw [if_neg hf] at h'
              by_cases hd : (tg == "directory") = true
              · rw [if_pos hd] at h'; exact Except.noConfusion h'
              · rw [if_neg hd] at h'; exact Except.noConfusion h'
          | some cbs =>
            have h' : (if (tg == "file") = true then
                  Except.ok (FSNode.file nm (childPath pp nm) c)
                else if (tg == "directory") = true then
                  (match deserializeList (childPath pp nm) cbs with
                   | Except.error e => (Except.error e : Except FmtError FSNode)
                   | Except.ok cs =>
                     if nodupStr (namesOfL cs) = true then
                       Except.ok (FSNode.dir nm (childPath pp nm) cs)
                     else Except.error FmtError.invalidFormat)
                else Except.error FmtError.invalidFormat) = .ok n := h
            by_cases hf : (tg == "file") = true
            · rw [if_pos hf] at h'; cases h'; rfl
            · rw [if_neg hf] at h'
              by_cases hd : (tg == "directory") = true
              · rw [if_pos hd] at h'
                cases hdl : deserializeList (childPath pp nm) cbs with
                | error e =>
                  rw [hdl] at h'
                  exact Except.noConfusion h'
                | ok cs =>
                  rw [hdl] at h'
                  have h2 : (if nodupStr (namesOfL cs) = true then
                        Except.ok (FSNode.dir nm (childPath pp nm) cs)
                      else (Except.error FmtError.invalidFormat :
                        Except FmtError FSNode)) = Except.ok n := h'
                  by_cases hn2 : nodupStr (namesOfL cs) = true
                  · rw [if_pos hn2] at h2
                    cases h2
                    rfl
                  · rw [if_neg hn2] at h2
                    exact Except.noConfusion h2
              · rw [if_neg hd] at h'; exact Except.noConfusion h'

theorem deserializeList_names : ∀ (bs : List Blob) (pp : String) (ns : List FSNode),
    deserializeList pp bs = .ok ns → namesOfL ns = bs.map blobNameOf := by
  intro bs
  induction bs with
  | nil =>
    intro pp ns h
    cases h
    rfl
  | cons b bs ih =>
    intro pp ns h
    simp only [deserializeList] at h
    cases hn : deserializeNode pp b with
    | error e =>
      simp only [hn] at h
      exact Except.noConfusion h
    | ok n =>
      simp only [hn] at h
      cases hl : deserializeList pp bs with
      | error e =>
        simp only [hl] at h
        exact Except.noConfusion h
      | ok ms =>
        simp only [hl] at h
        cases h
        rw [namesOfL_cons, List.map_cons, ih pp ms hl, deserializeNode_name hn]

theorem deserialize_missing_tag (nmo co : Option String)
    (cho : Option (List Blob)) :
    deserialize (.node none nmo co cho) = .error .invalidFormat := rfl

theorem deserialize_dup_names (rn : String) (oc : Option String) (cbs : List Blob)
    (hdup : nodupStr (cbs.map blobNameOf) = false) :
    deserialize (.node (some "directory") (some rn) oc (some cbs)) =
      .error .invalidFormat := by
  have hred : deserialize (.node (some "directory") (some rn) oc (some cbs)) =
      (match deserializeList "/" cbs with
       | .error e => (.error e : Except FmtError FSNode)
       | .ok cs =>
         if nodupStr (namesOfL cs) = true then .ok (FSNode.dir rn "/" cs)
         else .error .invalidFormat) := rfl
  rw [hred]
  cases hdl : deserializeList "/" cbs with
  | error e =>
    simp only [hdl]
  | ok cs =>
    simp only [hdl]
    rw [deserializeList_names cbs "/" cs hdl, hdup]
    simp

theorem deserialize_file_missing_content (rn : String) (oc : Option String)
    (nmo : Option String) (cho : Option (List Blob)) :
    deserialize (.node (some "directory") (some rn) oc
      (some [Blob.node (some "file") nmo none cho])) = .error .invalidFormat := by
  cases nmo <;> rfl

theorem childPath_of_ne_root (nm : String) {p : String} (hp : p ≠ "/") :
    childPath p nm = p ++ "/" ++ nm := by
  unfold childPath
  rw [if_neg hp]

theorem extendPath_suffix : ∀ (rel : List String) (p : String), p ≠ "" → p ≠ "/" →
    (∀ s ∈ rel, s ≠ "") → extendPath p rel = p ++ relSuffix rel := by
  intro rel
  induction rel with
  | nil =>
    intro p _ _ _
    rw [extendPath_nil]
    exact (String.append_empty p).symm
  | cons s rest ih =>
    intro p hp hp2 hmem
    have hs : s ≠ "" := hmem s (List.mem_cons_self _ _)
    have hcp := childPath_ne p s hp hs
    rw [extendPath_cons, ih (childPath p s) hcp.2 hcp.1
      (fun x hx => hmem x (List.mem_cons_of_mem _ hx))]
    rw [childPath_of_ne_root s hp2]
    show p ++ "/" ++ s ++ relSuffix rest = p ++ ("/" ++ s ++ relSuffix rest)
    rw [String.append_assoc, String.append_assoc, String.append_assoc]

theorem extendPath_ne : ∀ (ss : List String) (p : String), p ≠ "" → p ≠ "/" →
    (∀ s ∈ ss, s ≠ "") → extendPath p ss ≠ "" ∧ extendPath p ss ≠ "/" := by
  intro ss
  induction ss with
  | nil =>
    intro p hp hp2 _
    exact ⟨hp, hp2⟩
  | cons s rest ih =>
    intro p hp hp2 hmem
    have hs := hmem s (List.mem_cons_self _ _)
    have hcp := childPath_ne p s hp hs
    rw [extendPath_cons]
    exact ih _ hcp.2 hcp.1 (fun x hx => hmem x (List.mem_cons_of_mem _ hx))

theorem extendRoot_ne (ss : List String) (hne : ss ≠ [])
    (hmem : ∀ s ∈ ss, s ≠ "") :
    extendPath "/" ss ≠ "" ∧ extendPath "/" ss ≠ "/" := by
  cases ss with
  | nil => exact absurd rfl hne
  | cons s rest =>
    have hs := hmem s (List.mem_cons_self _ _)
    have hcp := childPath_ne "/" s (by decide) hs
    rw [extendPath_cons]
    exact extendPath_ne rest _ hcp.2 hcp.1
      (fun x hx => hmem x (List.mem_cons_of_mem _ hx))

theorem extendRoot_suffix (ss : List String) (rel : List String) (hne : ss ≠ [])
    (hmem : ∀ s ∈ ss, s ≠ "") (hrel : ∀ s ∈ rel, s ≠ "") :
    extendPath (extendPath "/" ss) rel = extendPath "/" ss ++ relSuffix rel := by
  have h := extendRoot_ne ss hne hmem
  exact extendPath_suffix rel _ h.1 h.2 hrel

theorem removeChildF_attrs {nm : String} {n n' : FSNode}
    (h : removeChildF nm n = .ok n') :
    nameOf n' = nameOf n ∧ pathOf n' = pathOf n ∧ isDir n' = isDir n := by
  cases n with
  | file _ _ _ => exact Except.noConfusion h
  | dir dn dp cs =>
    simp only [removeChildF] at h
    split at h
    · cases h
      exact ⟨rfl, rfl, rfl⟩
    · exact Except.noConfusion h

theorem appendChildF_attrs {nm : String} {mk : String → FSNode} {n n' : FSNode}
    (h : appendChildF nm mk n = .ok n') :
    nameOf n' = nameOf n ∧ pathOf n' = pathOf n ∧ isDir n' = isDir n := by
  cases n with
  | file _ _ _ => exact Except.noConfusion h
  | dir dn dp cs =>
    simp only [appendChildF] at h
    split at h
    · exact Except.noConfusion h
    · cases h
      exact ⟨rfl, rfl, rfl⟩

theorem appendChildF_ok_shape {nm : String} {mk : String → FSNode} {n n' : FSNode}
    (h : appendChildF nm mk n = .ok n') :
    ∃ dn dp cs, n = .dir dn dp cs ∧ findChild nm cs = none ∧
      n' = .dir dn dp (cs ++ [mk (childPath dp nm)]) := by
  cases n with
  | file _ _ _ => exact Except.noConfusion h
  | dir dn dp cs =>
    simp only [appendChildF] at h
    split at h
    · exact Except.noConfusion h
    · rename_i hfind
      cases h
      refine ⟨dn, dp, cs, rfl, ?_, rfl⟩
      cases hx : findChild nm cs with
      | none => rfl
      | some c => rw [hx] at hfind; simp at hfind

theorem setContentF_ok_shape {content : String} {n n' : FSNode}
    (h : setContentF content n = .ok n') :
    ∃ nm pth c, n = .file nm pth c ∧ n' = .file nm pth content := by
  cases n with
  | file nm pth c =>
    cases h
    exact ⟨nm, pth, c, rfl, rfl⟩
  | dir _ _ _ => exact Except.noConfusion h

theorem removeChildF_ok_shape {nm : String} {n n' : FSNode}
    (h : removeChildF nm n = .ok n') :
    ∃ dn dp cs, n = .dir dn dp cs ∧ (findChild nm cs).isSome = true ∧
      n' = .dir dn dp (removeChild nm cs) := by
  cases n with
  | file _ _ _ => exact Except.noConfusion h
  | dir dn dp cs =>
    simp only [removeChildF] at h
    split at h
    · rename_i hfind
      cases h
      exact ⟨dn, dp, cs, rfl, hfind, rfl⟩
    · exact Except.noConfusion h

theorem detectFrom_error_iff (t : FSNode) : ∀ (l : List String),
    detectFrom t l = .error .noEntryPoint ↔ ∀ p ∈ l, existsPath t p = false := by
  intro l
  induction l with
  | nil => simp [detectFrom]
  | cons p rest ih =>
    simp only [detectFrom]
    by_cases hp : existsPath t p = true
    · rw [if_pos hp]
      constructor
      · intro h; exact Except.noConfusion h
      · intro h
        rw [h p (List.mem_cons_self _ _)] at hp
        cases hp
    · rw [if_neg hp]
      rw [ih]
      constructor
      · intro h q hq
        rcases List.mem_cons.1 hq with hq | hq
        · subst hq
          cases hx : existsPath t q with
          | false => rfl
          | true => exact absurd hx hp
        · exact h q hq
      · intro h q hq
        exact h q (List.mem_cons_of_mem _ hq)

theorem detectFrom_ok (t : FSNode) : ∀ (l : List String) (q : String),
    detectFrom t l = .ok q →
    ∃ l1 l2, l = l1 ++ q :: l2 ∧ existsPath t q = true ∧
      ∀ r ∈ l1, existsPath t r = false := by
  intro l
  induction l with
  | nil =>
    intro q h
    exact Except.noConfusion h
  | cons p rest ih =>
    intro q h
    simp only [detectFrom] at h
    by_cases hp : existsPath t p = true
    · rw [if_pos hp] at h
      cases h
      exact ⟨[], rest, rfl, hp, by simp⟩
    · rw [if_neg hp] at h
      rcases ih q h with ⟨l1, l2, hl, hq, hall⟩
      refine ⟨p :: l1, l2, by rw [hl]; rfl, hq, ?_⟩
      intro r hr
      rcases List.mem_cons.1 hr with hr | hr
      · subst hr
        cases hx : existsPath t r with
        | false => rfl
        | true => exact absurd hx hp
      · exact hall r hr

theorem pathSegs_normalize (p : String) : pathSegs (normalize p) = pathSegs p := by
  unfold normalize
  cases hls : segsOfChars p.data with
  | nil =>
    have : pathSegs p = [] := by simp [pathSegs, hls]
    rw [this]
    rfl
  | cons l ls =>
    have hmem : ∀ x ∈ l :: ls, noSlash x = true ∧ x ≠ [] := by
      rw [← hls]; exact mem_segsOfChars p.data
    have hl := hmem l (List.mem_cons_self _ _)
    have hps : pathSegs p = (l :: ls).map String.mk := by simp [pathSegs, hls]
    rw [hps]
    have hstep : extendPath "/" (List.map String.mk (l :: ls)) =
        extendPath (childPath "/" (String.mk l)) (List.map String.mk ls) := rfl
    have hmk : (String.mk l) ≠ "" := by
      rw [data_ne_nil_iff]; simpa using hl.2
    have hcp := childPath_ne "/" (String.mk l) (by decide) hmk
    have hcpd : (childPath "/" (String.mk l)).data = '/' :: l := by
      unfold childPath
      rw [if_pos rfl, data_append]
      simp [show ("/" : String).data = ['/'] from rfl]
    have hdata : (extendPath "/" (List.map String.mk (l :: ls))).data =
        slashJoin (l :: ls) := by
      rw [hstep, extendPath_data ls _ hcp.2 hcp.1
        (fun x hx => (hmem x (List.mem_cons_of_mem _ hx)).2), hcpd]
      simp [slashJoin]
    unfold pathSegs
    rw [hdata, segsOfChars_slashJoin _ hmem]

end VFS

theorem loadVitestSetup_eq (e : Env) : loadVitestSetup e =
    { nodeEnv := if falsy e.nodeEnv then some "test" else e.nodeEnv,
      jwtSecret := if falsy e.jwtSecret then some "test-secret-key-for-testing"
        else e.jwtSecret,
      anthropicApiKey := if falsy e.anthropicApiKey then some ""
        else e.anthropicApiKey,
      ci := e.ci } := by
  cases e with
  | mk ne js ak ci =>
    simp only [loadVitestSetup]
    by_cases h1 : falsy ne = true <;> by_cases h2 : falsy js = true <;>
      by_cases h3 : falsy ak = true <;> simp [h1, h2, h3]

theorem loadVitestSetupOld_eq (e : Env) : loadVitestSetupOld e =
    { nodeEnv := some "test",
      jwtSecret := some "test-secret-key-for-testing",
      anthropicApiKey := if falsy e.anthropicApiKey then some ""
        else e.anthropicApiKey,
      ci := e.ci } := by
  cases e with
  | mk ne js ak ci =>
    simp only [loadVitestSetupOld]
    by_cases h3 : falsy ak = true <;> simp [h3]

theorem falsy_false_of_nonempty {o : Option String}
    (h : ∃ s, o = some s ∧ s ≠ "") : falsy o = false := by
  rcases h with ⟨s, hs, hne⟩
  subst hs
  simp [falsy, hne]

/-- Claim C1: the VFS path normalization function is idempotent: for every
input path `p`, `normalize (normalize p) = normalize p`. -/
theorem claim_C1 (p : String) : VFS.normalize (VFS.normalize p) = VFS.normalize p := by
  show VFS.extendPath "/" (VFS.pathSegs (VFS.normalize p)) = VFS.normalize p
  rw [VFS.pathSegs_normalize]
  rfl

/-- Claim C7: every VFS operation is atomic per call — when an operation
fails the tree after the call equals the tree before it, and every outcome
is a structured value: the operation either returns a new tree or an error
value, never anything else. -/
theorem claim_C7 (t : VFS.FSNode) (o : VFS.Op) :
    ((VFS.runOp t o).2 = none → VFS.applyOp t o = .ok (VFS.runOp t o).1) ∧
    (∀ e, (VFS.runOp t o).2 = some e →
      (VFS.runOp t o).1 = t ∧ VFS.applyOp t o = .error e) ∧
    ((∃ t', VFS.applyOp t o = .ok t') ∨ (∃ e, VFS.applyOp t o = .error e)) := by
  cases h : VFS.applyOp t o with
  | ok t' =>
    refine ⟨?_, ?_, Or.inl ⟨t', rfl⟩⟩ <;> simp [VFS.runOp, h]
  | error e =>
    refine ⟨?_, ?_, Or.inr ⟨e, rfl⟩⟩ <;> simp [VFS.runOp, h]

/-- Witness for C7 at a concrete failing operation: deleting the missing
path `/x` on the empty VFS reports `NotFound` and keeps the tree. -/
theorem claim_C7_witness :
    (VFS.runOp VFS.emptyVFS (VFS.Op.delete "/x")).1 = VFS.emptyVFS ∧
    VFS.applyOp VFS.emptyVFS (VFS.Op.delete "/x") =
      .error (VFS.VErr.path VFS.PathError.notFound) :=
  (claim_C7 VFS.emptyVFS (VFS.Op.delete "/x")).2.1
    (VFS.VErr.path VFS.PathError.notFound) rfl

/-- Claim C9: after loading the Vitest setup module, `ANTHROPIC_API_KEY`
is always a defined string (possibly empty), and the default-exported
`setup` function performs no further environment mutation. -/
theorem claim_C9 (e : Env) :
    (∃ s, (loadVitestSetup e).anthropicApiKey = some s) ∧
    vitestSetupFn (loadVitestSetup e) = loadVitestSetup e ∧
    ∀ e', vitestSetupFn e' = e' := by
  refine ⟨?_, rfl, fun e' => rfl⟩
  rw [loadVitestSetup_eq]
  show ∃ s, (if falsy e.anthropicApiKey then some "" else e.anthropicApiKey) = some s
  by_cases h : falsy e.anthropicApiKey = true
  · rw [if_pos h]
    exact ⟨"", rfl⟩
  · rw [if_neg h]
    cases hak : e.anthropicApiKey with
    | none => rw [hak] at h; exact absurd rfl h
    | some s => exact ⟨s, rfl⟩

/-- Claim C8: loading the Vitest setup module is idempotent and
non-destructive: when `NODE_ENV`, `JWT_SECRET` and `ANTHROPIC_API_KEY` are
already set to non-empty values, loading changes nothing, and loading a
second time after a first load changes nothing. -/
theorem claim_C8 (e : Env)
    (h1 : ∃ s, e.nodeEnv = some s ∧ s ≠ "")
    (h2 : ∃ s, e.jwtSecret = some s ∧ s ≠ "")
    (h3 : ∃ s, e.anthropicApiKey = some s ∧ s ≠ "") :
    loadVitestSetup e = e ∧
    loadVitestSetup (loadVitestSetup e) = loadVitestSetup e := by
  have g1 := falsy_false_of_nonempty h1
  have g2 := falsy_false_of_nonempty h2
  have g3 := falsy_false_of_nonempty h3
  have hload : loadVitestSetup e = e := by
    rw [loadVitestSetup_eq, g1, g2, g3]
    show Env.mk e.nodeEnv e.jwtSecret e.anthropicApiKey e.ci = e
    cases e
    rfl
  exact ⟨hload, by rw [hload, hload]⟩

/-- Witness for C8 at a concrete fully-populated environment. -/
theorem claim_C8_witness :
    loadVitestSetup (Env.mk (some "production") (some "sec") (some "key") none) =
      Env.mk (some "production") (some "sec") (some "key") none ∧
    loadVitestSetup (loadVitestSetup
        (Env.mk (some "production") (some "sec") (some "key") none)) =
      loadVitestSetup (Env.mk (some "production") (some "sec") (some "key") none) :=
  claim_C8 (Env.mk (some "production") (some "sec") (some "key") none)
    ⟨"production", rfl, by decide⟩ ⟨"sec", rfl, by decide⟩ ⟨"key", rfl, by decide⟩

/-- Claim C10: the old unconditional setup module and the new guarded one
agree when `NODE_ENV`, `JWT_SECRET` and `ANTHROPIC_API_KEY` are all
initially unset, and there is an initial environment with `NODE_ENV` or
`JWT_SECRET` already set on which they disagree. -/
theorem claim_C10 (e : Env)
    (h1 : e.nodeEnv = none) (h2 : e.jwtSecret = none)
    (h3 : e.anthropicApiKey = none) :
    loadVitestSetupOld e = loadVitestSetup e ∧
    ∃ e', (e'.nodeEnv ≠ none ∨ e'.jwtSecret ≠ none) ∧
      loadVitestSetupOld e' ≠ loadVitestSetup e' := by
  constructor
  · rw [loadVitestSetup_eq, loadVitestSetupOld_eq, h1, h2]
    rfl
  · refine ⟨Env.mk (some "production") none none none, Or.inl (by decide), ?_⟩
    decide

/-- Witness for C10 at the all-unset environment. -/
theorem claim_C10_witness :
    loadVitestSetupOld (Env.mk none none none none) =
      loadVitestSetup (Env.mk none none none none) :=
  (claim_C10 (Env.mk none none none none) rfl rfl rfl).1

/-- Claim C2: for every tree produced by a sequence of the VFS's own
operations, `deserialize (serialize tree)` returns the tree unchanged; and
`deserialize` rejects malformed blobs — a missing `type` field, a file
entry missing its required `content` field, and duplicate sibling names —
with `InvalidFormat`. -/
theorem claim_C2 (t : VFS.FSNode) (h : VFS.Reachable t) :
    VFS.deserialize (VFS.serialize t) = .ok t ∧
    (∀ nmo co cho, VFS.deserialize (.node none nmo co cho) =
      .error .invalidFormat) ∧
    (∀ rn oc cbs, VFS.nodupStr (cbs.map VFS.blobNameOf) = false →
      VFS.deserialize (.node (some "directory") (some rn) oc (some cbs)) =
        .error .invalidFormat) ∧
    (∀ rn oc nmo cho, VFS.deserialize (.node (some "directory") (some rn) oc
      (some [VFS.Blob.node (some "file") nmo none cho])) =
        .error .invalidFormat) :=
  ⟨VFS.deserialize_serialize (VFS.reachable_wfRoot h),
    fun nmo co cho => VFS.deserialize_missing_tag nmo co cho,
    fun rn oc cbs hdup => VFS.deserialize_dup_names rn oc cbs hdup,
    fun rn oc nmo cho => VFS.deserialize_file_missing_content rn oc nmo cho⟩

/-- Witness for C2 at the empty VFS, reachable by the empty operation
sequence. -/
theorem claim_C2_witness :
    VFS.deserialize (VFS.serialize VFS.emptyVFS) = .ok VFS.emptyVFS :=
  (claim_C2 VFS.emptyVFS VFS.Reachable.base).1

/-- Claim C4: `str_replace` on a file whose content contains the search
string two or more times fails with the ambiguous-match error and leaves
the tree — in particular the file's content — exactly as before. -/
theorem claim_C4 (t : VFS.FSNode) (p oldS newS nm pth c : String)
    (hfile : VFS.lookupSegs (VFS.pathSegs p) t = some (.file nm pth c))
    (hcount : 2 ≤ VFS.countOcc oldS.data c.data) :
    VFS.strReplace t p oldS newS = .error (.edit .ambiguousMatch) ∧
    VFS.runOp t (.strReplace p oldS newS) =
      (t, some (VFS.VErr.edit .ambiguousMatch)) ∧
    VFS.readNode (VFS.runOp t (.strReplace p oldS newS)).1 p =
      .ok (.file nm pth c) := by
  have hread : VFS.readNode t p = .ok (.file nm pth c) := by
    simp [VFS.readNode, hfile]
  have hsr : VFS.strReplace t p oldS newS = .error (.edit .ambiguousMatch) := by
    simp only [VFS.strReplace, hread]
    rw [if_neg (by omega), if_neg (by omega)]
  have hrun : VFS.runOp t (.strReplace p oldS newS) =
      (t, some (VFS.VErr.edit .ambiguousMatch)) := by
    simp [VFS.runOp, VFS.applyOp, hsr]
  exact ⟨hsr, hrun, by rw [hrun]; exact hread⟩

/-- Witness for C4: replacing `"a"` in a file containing `"abab"`. -/
theorem claim_C4_witness :
    VFS.strReplace (VFS.FSNode.dir "" "/" [VFS.FSNode.file "f.txt" "/f.txt" "abab"])
        "/f.txt" "a" "z" = .error (.edit .ambiguousMatch) ∧
    VFS.runOp (VFS.FSNode.dir "" "/" [VFS.FSNode.file "f.txt" "/f.txt" "abab"])
        (.strReplace "/f.txt" "a" "z") =
      (VFS.FSNode.dir "" "/" [VFS.FSNode.file "f.txt" "/f.txt" "abab"],
        some (VFS.VErr.edit .ambiguousMatch)) ∧
    VFS.readNode (VFS.runOp
        (VFS.FSNode.dir "" "/" [VFS.FSNode.file "f.txt" "/f.txt" "abab"])
        (.strReplace "/f.txt" "a" "z")).1 "/f.txt" =
      .ok (.file "f.txt" "/f.txt" "abab") :=
  claim_C4 (VFS.FSNode.dir "" "/" [VFS.FSNode.file "f.txt" "/f.txt" "abab"])
    "/f.txt" "a" "z" "f.txt" "/f.txt" "abab" rfl (by decide)

/-- Claim C6: entry point detection scans the fixed ordered candidate list
and returns the first existing candidate, failing with `NoEntryPoint` when
none exists; a VFS containing `/App.jsx` detects `/App.jsx`, and a VFS
containing only `/components/Foo.jsx` fails with `NoEntryPoint`. -/
theorem claim_C6 (t : VFS.FSNode) :
    (VFS.detectEntryPoint t = .error .noEntryPoint ↔
      ∀ p ∈ VFS.entryCandidates, VFS.existsPath t p = false) ∧
    (∀ q, VFS.detectEntryPoint t = .ok q →
      ∃ l1 l2, VFS.entryCandidates = l1 ++ q :: l2 ∧
        VFS.existsPath t q = true ∧ ∀ r ∈ l1, VFS.existsPath t r = false) ∧
    (∃ t1, VFS.create VFS.emptyVFS "/App.jsx"
        "export default function App()\x7breturn null\x7d" = .ok t1 ∧
      VFS.detectEntryPoint t1 = .ok "/App.jsx") ∧
    (∃ t1 t2, VFS.createDir VFS.emptyVFS "/components" = .ok t1 ∧
      VFS.create t1 "/components/Foo.jsx"
        "export default function Foo()\x7breturn null\x7d" = .ok t2 ∧
      VFS.detectEntryPoint t2 = .error .noEntryPoint) := by
  refine ⟨VFS.detectFrom_error_iff t VFS.entryCandidates,
    fun q h => VFS.detectFrom_ok t VFS.entryCandidates q h, ?_, ?_⟩
  · exact ⟨_, rfl, rfl⟩
  · exact ⟨_, _, rfl, rfl, rfl⟩

/-- Witness for C6 at the empty VFS, where detection reports
`NoEntryPoint`. -/
theorem claim_C6_witness :
    VFS.detectEntryPoint VFS.emptyVFS = .error .noEntryPoint :=
  (claim_C6 VFS.emptyVFS).1.2 (by intro p hp; fin_cases hp <;> rfl)

/-- Claim C5: deleting a directory (or file) removes the node and its
entire subtree — afterwards `read` fails with `NotFound` on the deleted
path and every former descendant path; deleting a missing path fails with
`NotFound`, and the root cannot be deleted. -/
theorem claim_C5 (t : VFS.FSNode) (p : String) (hwf : VFS.wfRoot t = true) :
    (∀ t', VFS.delete t p = .ok t' →
      ∀ q rel, VFS.pathSegs q = VFS.pathSegs p ++ rel →
        VFS.readNode t' q = .error .notFound) ∧
    (VFS.pathSegs p ≠ [] → VFS.lookupSegs (VFS.pathSegs p) t = none →
      VFS.delete t p = .error .notFound) ∧
    (VFS.pathSegs p = [] → VFS.delete t p = .error .invalidPath) := by
  refine ⟨?_, ?_, ?_⟩
  · intro t' hdel q rel hq
    simp only [VFS.delete] at hdel
    split at hdel
    · exact Except.noConfusion hdel
    · rename_i hss
      split at hdel
      · have hup := VFS.updateAt_ok
          (fun a a' hh => VFS.removeChildF_attrs hh) _ t t' hdel
        rcases hup.1 with ⟨pn, pn', hlpn, hfn, hlpn'⟩
        rcases VFS.removeChildF_ok_shape hfn with ⟨dn, dp, cs, hpn, hfind, hpn'⟩
        subst hpn
        subst hpn'
        have hwfn :=
          (VFS.lookupSegs_wfN _ t _ (VFS.wfRoot_parts hwf).2.2.2 hlpn).1
        have hnodup : VFS.nodupStr (VFS.namesOfL cs) = true := by
          simp only [VFS.wfN, Bool.and_eq_true] at hwfn
          exact hwfn.1
        have hnone : VFS.lookupSegs (VFS.pathSegs p) t' = none := by
          have hsplit : (VFS.pathSegs p).dropLast ++
              [(VFS.pathSegs p).getLast hss] = VFS.pathSegs p :=
            List.dropLast_append_getLast hss
          rw [← hsplit, VFS.lookupSegs_append, hlpn']
          show VFS.lookupSegs [(VFS.pathSegs p).getLast hss]
            (VFS.FSNode.dir dn dp
              (VFS.removeChild ((VFS.pathSegs p).getLast hss) cs)) = none
          simp [VFS.lookupSegs, VFS.findChild_removeChild hnodup]
        have hqnone : VFS.lookupSegs (VFS.pathSegs q) t' = none := by
          rw [hq, VFS.lookupSegs_append, hnone]
          rfl
        simp [VFS.readNode, hqnone]
      · exact Except.noConfusion hdel
  · intro hss hnone
    simp only [VFS.delete]
    rw [dif_neg hss, hnone]
    rfl
  · intro hss
    simp only [VFS.delete]
    rw [dif_pos hss]

/-- Witness for C5: deleting `/a` from a tree holding `/a/x.txt` makes the
former descendant path unreadable. -/
theorem claim_C5_witness :
    VFS.readNode (VFS.FSNode.dir "" "/" []) "/a/x.txt" = .error .notFound :=
  (claim_C5 (VFS.FSNode.dir "" "/"
      [VFS.FSNode.dir "a" "/a" [VFS.FSNode.file "x.txt" "/a/x.txt" "hi"]])
    "/a" rfl).1 (VFS.FSNode.dir "" "/" []) rfl "/a/x.txt" ["x.txt"] rfl

/-- Claim C3: renaming a node updates the path of the node and of every
descendant by replacing the old-path prefix with the new path while
changing no other attribute (kind, content, child names; names of proper
descendants); `rename` fails with `NotFound` when the source is absent and
with `AlreadyExists` when the destination is occupied. -/
theorem claim_C3 (t : VFS.FSNode) (oldP newP : String)
    (hwf : VFS.wfRoot t = true) :
    (∀ t', VFS.rename t oldP newP = .ok t' →
      ∀ rel d, VFS.lookupSegs (VFS.pathSegs oldP ++ rel) t = some d →
        ∃ d', VFS.lookupSegs (VFS.pathSegs newP ++ rel) t' = some d' ∧
          (rel ≠ [] → VFS.nameOf d' = VFS.nameOf d) ∧
          VFS.isDir d' = VFS.isDir d ∧
          VFS.contentOf d' = VFS.contentOf d ∧
          VFS.childNames d' = VFS.childNames d ∧
          VFS.pathOf d = VFS.normalize oldP ++ VFS.relSuffix rel ∧
          VFS.pathOf d' = VFS.normalize newP ++ VFS.relSuffix rel) ∧
    (VFS.pathSegs oldP ≠ [] → VFS.lookupSegs (VFS.pathSegs oldP) t = none →
      VFS.rename t oldP newP = .error .notFound) ∧
    (VFS.pathSegs oldP ≠ [] → VFS.pathSegs newP ≠ [] →
      VFS.lookupSegs (VFS.pathSegs oldP) t ≠ none →
      (VFS.lookupSegs (VFS.pathSegs newP) t).isSome = true →
      VFS.rename t oldP newP = .error .alreadyExists) := by
  refine ⟨?_, ?_, ?_⟩
  · intro t' hr rel d hd
    simp only [VFS.rename] at hr
    split at hr
    · exact Except.noConfusion hr
    · rename_i hos
      cases hlk : VFS.lookupSegs (VFS.pathSegs oldP) t with
      | none =>
        simp only [hlk] at hr
        exact Except.noConfusion hr
      | some n =>
        simp only [hlk] at hr
        split at hr
        · exact Except.noConfusion hr
        · rename_i hns
          split at hr
          · exact Except.noConfusion hr
          · split at hr
            · exact Except.noConfusion hr
            · rename_i t1 hrem
              have hparts := VFS.wfRoot_parts hwf
              have hwfT : VFS.wfN t = true := hparts.2.2.2
              have hwfn : VFS.wfN n = true :=
                (VFS.lookupSegs_wfN _ t n hwfT hlk).1
              have hwf1 : VFS.wfRoot t1 = true :=
                VFS.wfRoot_of_updateAt
                  (fun a a' hfn hwfa => VFS.removeChildF_wf hfn hwfa) hwf hrem
              have hup := VFS.updateAt_ok
                (fun a a' hh => VFS.appendChildF_attrs hh) _ t1 t' hr
              rcases hup.1 with ⟨pn, pn', hlpn, hfn, hlpn'⟩
              rcases VFS.appendChildF_ok_shape hfn with
                ⟨dn, dp, cs, hpn, hfind, hpn'⟩
              subst hpn
              subst hpn'
              have hw1parts := VFS.wfRoot_parts hwf1
              have hlook1 := VFS.lookupSegs_wfN _ t1 _ hw1parts.2.2.2 hlpn
              have hdp : dp = VFS.extendPath "/" (VFS.pathSegs newP).dropLast := by
                have hx := hlook1.2.1
                rw [hw1parts.2.1] at hx
                exact hx
              have hsplitNew : (VFS.pathSegs newP).dropLast ++
                  [(VFS.pathSegs newP).getLast hns] = VFS.pathSegs newP :=
                List.dropLast_append_getLast hns
              have hnp : VFS.childPath dp ((VFS.pathSegs newP).getLast hns) =
                  VFS.normalize newP := by
                rw [hdp]
                have hstep : VFS.extendPath "/" ((VFS.pathSegs newP).dropLast ++
                    [(VFS.pathSegs newP).getLast hns]) =
                    VFS.childPath (VFS.extendPath "/" (VFS.pathSegs newP).dropLast)
                      ((VFS.pathSegs newP).getLast hns) := by
                  rw [VFS.extendPath_append]
                  rfl
                rw [← hstep, hsplitNew]
                rfl
              have hlookupNew : VFS.lookupSegs (VFS.pathSegs newP) t' =
                  some (VFS.reroot ((VFS.pathSegs newP).getLast hns)
                    (VFS.childPath dp ((VFS.pathSegs newP).getLast hns)) n) := by
                have h1 : VFS.lookupSegs ((VFS.pathSegs newP).dropLast ++
                    [(VFS.pathSegs newP).getLast hns]) t' =
                    some (VFS.reroot ((VFS.pathSegs newP).getLast hns)
                      (VFS.childPath dp ((VFS.pathSegs newP).getLast hns)) n) := by
                  rw [VFS.lookupSegs_append, hlpn']
                  show VFS.lookupSegs [(VFS.pathSegs newP).getLast hns]
                    (VFS.FSNode.dir dn dp (cs ++
                      [VFS.reroot ((VFS.pathSegs newP).getLast hns)
                        (VFS.childPath dp ((VFS.pathSegs newP).getLast hns)) n]))
                    = _
                  simp only [VFS.lookupSegs]
                  rw [VFS.findChild_append_one hfind]
                  rw [if_pos (by simp [VFS.nameOf_reroot])]
                rw [hsplitNew] at h1
                exact h1
              have hreld : VFS.lookupSegs rel n = some d := by
                rw [VFS.lookupSegs_append, hlk] at hd
                exact hd
              have hlookD := VFS.lookupSegs_wfN _ t d hwfT hd
              have hmemOld : ∀ s ∈ VFS.pathSegs oldP, s ≠ "" :=
                VFS.mem_pathSegs_ne_empty oldP
              have hmemRel : ∀ s ∈ rel, s ≠ "" := by
                intro s hs
                exact hlookD.2.2 s (List.mem_append.2 (Or.inr hs))
              have hlookup_rel : VFS.lookupSegs rel
                  (VFS.reroot ((VFS.pathSegs newP).getLast hns)
                    (VFS.childPath dp ((VFS.pathSegs newP).getLast hns)) n) =
                  some (VFS.reroot
                    (if rel.isEmpty then (VFS.pathSegs newP).getLast hns
                      else VFS.nameOf d)
                    (VFS.extendPath
                      (VFS.childPath dp ((VFS.pathSegs newP).getLast hns)) rel)
                    d) := by
                rw [VFS.lookupSegs_reroot, hreld]
                rfl
              refine ⟨VFS.reroot
                  (if rel.isEmpty then (VFS.pathSegs newP).getLast hns
                    else VFS.nameOf d)
                  (VFS.extendPath
                    (VFS.childPath dp ((VFS.pathSegs newP).getLast hns)) rel) d,
                ?_, ?_, ?_, ?_, ?_, ?_, ?_⟩
              · rw [VFS.lookupSegs_append, hlookupNew]
                exact hlookup_rel
              · intro hrelne
                rw [VFS.nameOf_reroot]
                rw [if_neg (by simpa using hrelne)]
              · exact VFS.isDir_reroot _ _ _
              · exact VFS.contentOf_reroot _ _ _
              · exact VFS.childNames_reroot _ _ _
              · have hpath := hlookD.2.1
                rw [hparts.2.1, VFS.extendPath_append] at hpath
                rw [hpath, VFS.extendRoot_suffix _ rel hos hmemOld hmemRel]
                rfl
              · rw [VFS.pathOf_reroot, hnp]
                show VFS.extendPath (VFS.extendPath "/" (VFS.pathSegs newP)) rel = _
                rw [VFS.extendRoot_suffix _ rel hns
                  (VFS.mem_pathSegs_ne_empty newP) hmemRel]
                rfl
  · intro hos hnone
    simp only [VFS.rename]
    rw [dif_neg hos, hnone]
  · intro hos hns hsome hex
    simp only [VFS.rename]
    rw [dif_neg hos]
    cases hlk : VFS.lookupSegs (VFS.pathSegs oldP) t with
    | none => exact absurd hlk hsome
    | some n =>
      simp only [hlk]
      rw [dif_neg hns, if_pos hex]

/-- Witness for C3: renaming the directory `/a` (holding `/a/x.txt`) to
`/b` moves the descendant to `/b/x.txt` with all other attributes kept. -/
theorem claim_C3_witness :
    ∃ d', VFS.lookupSegs (VFS.pathSegs "/b" ++ ["x.txt"])
        (VFS.FSNode.dir "" "/" [VFS.FSNode.dir "b" "/b"
          [VFS.FSNode.file "x.txt" "/b/x.txt" "hi"]]) = some d' ∧
      ((["x.txt"] : List String) ≠ [] →
        VFS.nameOf d' = VFS.nameOf (VFS.FSNode.file "x.txt" "/a/x.txt" "hi")) ∧
      VFS.isDir d' = VFS.isDir (VFS.FSNode.file "x.txt" "/a/x.txt" "hi") ∧
      VFS.contentOf d' = VFS.contentOf (VFS.FSNode.file "x.txt" "/a/x.txt" "hi") ∧
      VFS.childNames d' = VFS.childNames (VFS.FSNode.file "x.txt" "/a/x.txt" "hi") ∧
      VFS.pathOf (VFS.FSNode.file "x.txt" "/a/x.txt" "hi") =
        VFS.normalize "/a" ++ VFS.relSuffix ["x.txt"] ∧
      VFS.pathOf d' = VFS.normalize "/b" ++ VFS.relSuffix ["x.txt"] :=
  (claim_C3 (VFS.FSNode.dir "" "/"
      [VFS.FSNode.dir "a" "/a" [VFS.FSNode.file "x.txt" "/a/x.txt" "hi"]])
    "/a" "/b" rfl).1
    (VFS.FSNode.dir "" "/" [VFS.FSNode.dir "b" "/b"
      [VFS.FSNode.file "x.txt" "/b/x.txt" "hi"]])
    rfl ["x.txt"] (VFS.FSNode.file "x.txt" "/a/x.txt" "hi") rfl
